import Mathlib

set_option maxHeartbeats 1000000

/-!
Verification development for `bin/merge_package_json.py`: a deep merger for
package.json documents with semver-aware dependency-version reconciliation.
The Python source is embedded shallowly: pure string helpers become Lean
string functions, JSON values become the inductive `JVal`, and operations
that can raise Python exceptions return `Except PyErr`.
-/

/-- Python exception kinds that the embedded operations can raise. -/
inductive PyErr where
  | typeErr
  | attrErr
deriving DecidableEq, Repr

/-- JSON-like document values (Python objects produced by json.loads):
strings, integers, booleans, null, arrays, and ordered objects
(association lists preserving insertion order, as Python dicts do). -/
inductive JVal where
  | str (s : String)
  | int (n : Int)
  | bool (b : Bool)
  | null
  | arr (elems : List JVal)
  | obj (fields : List (String × JVal))

/-- First-match lookup in an ordered association list (Python dict read). -/
def lookupA : List (String × JVal) → String → Option JVal
  | [], _ => none
  | (k2, v) :: rest, k => if k2 = k then some v else lookupA rest k

/-- Python dict assignment: replace the value at an existing key in place
(keeping its position) or append a new key at the end. -/
def upsertA : List (String × JVal) → String → JVal → List (String × JVal)
  | [], k, v => [(k, v)]
  | (k2, v2) :: rest, k, v =>
      if k2 = k then (k2, v) :: rest else (k2, v2) :: upsertA rest k v

/-- Keys of an association list, in order. -/
def keysOf (l : List (String × JVal)) : List String := l.map Prod.fst

/-! ## Character-list string utilities

Python string primitives (`in`, `split`, `replace`, `strip`, comparison)
are embedded as structurally recursive functions over `List Char` so that
every definition evaluates by reduction. -/

/-- Lexicographic less-than on code points: Python's `str < str`. -/
def charsLtB : List Char → List Char → Bool
  | [], [] => false
  | [], _ :: _ => true
  | _ :: _, [] => false
  | c :: cs, d :: ds => if c = d then charsLtB cs ds else decide (c.toNat < d.toNat)

/-- Python's `p in s` substring test. -/
def containsC : List Char → List Char → Bool
  | s, p =>
    if p.isPrefixOf s then true
    else
      match s with
      | [] => false
      | _ :: t => containsC t p

/-- Split on a single-character separator, keeping empty pieces
(Python `s.split(sep)` for a one-character `sep`). -/
def splitOnCh (sep : Char) : List Char → List (List Char)
  | [] => [[]]
  | c :: rest =>
    if c = sep then [] :: splitOnCh sep rest
    else
      match splitOnCh sep rest with
      | [] => [[c]]
      | p :: ps => (c :: p) :: ps

/-- Split on the two-character separator `||` (Python `s.split("||")`). -/
def splitBars : List Char → List (List Char)
  | [] => [[]]
  | '|' :: '|' :: rest => [] :: splitBars rest
  | c :: rest =>
    match splitBars rest with
    | [] => [[c]]
    | p :: ps => (c :: p) :: ps

/-- Split on the three-character separator `" - "` (npm hyphen ranges). -/
def splitHyRange : List Char → List (List Char)
  | [] => [[]]
  | ' ' :: '-' :: ' ' :: rest => [] :: splitHyRange rest
  | c :: rest =>
    match splitHyRange rest with
    | [] => [[c]]
    | p :: ps => (c :: p) :: ps

/-- Strip leading and trailing whitespace (Python `s.strip()`). -/
def trimC (l : List Char) : List Char :=
  ((l.dropWhile (·.isWhitespace)).reverse.dropWhile (·.isWhitespace)).reverse

/-- Replace every occurrence of character `a` by `b`
(Python `s.replace(a, b)` for one-character arguments). -/
def replaceCh (a b : Char) (l : List Char) : List Char :=
  l.map (fun c => if c = a then b else c)

/-- Numeric value of a digit string. -/
def digitsVal (l : List Char) : Nat :=
  l.foldl (fun acc c => acc * 10 + (c.toNat - 48)) 0

/-- Parse a nonempty all-digit string with no superfluous leading zero,
as the semantic-version library does for version components. -/
def parseNatStrict (l : List Char) : Option Nat :=
  if l.isEmpty || !(l.all (·.isDigit)) then none
  else
    match l with
    | [_] => some (digitsVal l)
    | c :: _ => if c = '0' then none else some (digitsVal l)
    | [] => none

/-- Join pieces with `:` (Python `":".join(...)`). -/
def joinColon : List (List Char) → List Char
  | [] => []
  | [x] => x
  | x :: xs => x ++ ':' :: joinColon xs

/-- Join pieces with `-` (undoes a split on `-` past the first hyphen). -/
def joinDash : List (List Char) → List Char
  | [] => []
  | [x] => x
  | x :: xs => x ++ '-' :: joinDash xs

/-- Stable insertion of a string into an ascending list (Python `sorted`). -/
def insStr (x : List Char) : List (List Char) → List (List Char)
  | [] => [x]
  | y :: ys => if !charsLtB y x then x :: y :: ys else y :: insStr x ys

/-- Ascending stable sort of strings (Python `sorted` on `str`). -/
def sortStrs : List (List Char) → List (List Char)
  | [] => []
  | x :: xs => insStr x (sortStrs xs)

/-! ## Semantic versions

Model of the external semantic-version library's `Version` values and
their precedence ordering (major, minor, patch, then prerelease). -/

/-- One dot-separated prerelease identifier: numeric or alphanumeric. -/
inductive PreId where
  | num (n : Nat)
  | alpha (s : List Char)
deriving DecidableEq, Repr

/-- A concrete semantic version (build metadata ignored for ordering). -/
structure SemVer where
  major : Nat
  minor : Nat
  patch : Nat
  pre : List PreId
deriving DecidableEq, Repr

/-- Semver precedence on prerelease identifiers: numeric identifiers sort
below alphanumeric ones; numeric compare numerically, alphanumeric
lexically. -/
def preIdLtB : PreId → PreId → Bool
  | .num m, .num n => m < n
  | .num _, .alpha _ => true
  | .alpha _, .num _ => false
  | .alpha s, .alpha t => charsLtB s t

/-- Semver precedence on prerelease lists: a release (empty list) ranks
above every prerelease; otherwise compare identifiers left to right,
with a proper prefix ranking lower. -/
def preLtB : List PreId → List PreId → Bool
  | [], [] => false
  | [], _ :: _ => false
  | _ :: _, [] => true
  | x :: xs, y :: ys =>
    if preIdLtB x y then true
    else if preIdLtB y x then false
    else preLtB xs ys

/-- Strict semantic-version precedence. -/
def semverLtB (a b : SemVer) : Bool :=
  if a.major ≠ b.major then a.major < b.major
  else if a.minor ≠ b.minor then a.minor < b.minor
  else if a.patch ≠ b.patch then a.patch < b.patch
  else preLtB a.pre b.pre

/-- Parse one prerelease identifier (alphanumerics and hyphens only;
all-digit identifiers must not carry a leading zero). -/
def parsePreId (l : List Char) : Option PreId :=
  if l.isEmpty then none
  else if !(l.all (fun c => c.isAlphanum || c = '-')) then none
  else if l.all (·.isDigit) then (parseNatStrict l).map .num
  else some (.alpha l)

/-- Parse a dot-separated prerelease list. -/
def parsePre (l : List Char) : Option (List PreId) :=
  (splitOnCh '.' l).mapM parsePreId

/-- Modelled from the spec: the external library's `Version` constructor
(strict form), used by the Anchor Extractor's textual fallback. Requires
`major.minor.patch` with optional `-prerelease`; build metadata after
`+` is accepted and ignored; anything else fails. -/
def versionParse (s : List Char) : Option SemVer :=
  let noBuild := (splitOnCh '+' s).headD []
  match splitOnCh '-' noBuild with
  | [] => none
  | core :: rest =>
    match splitOnCh '.' core with
    | [a, b, c] => do
      let ma ← parseNatStrict a
      let mi ← parseNatStrict b
      let pa ← parseNatStrict c
      if rest.isEmpty then
        some ⟨ma, mi, pa, []⟩
      else do
        let pre ← parsePre (joinDash rest)
        some ⟨ma, mi, pa, pre⟩
    | _ => none

/-! ## npm range parsing

Modelled from the spec (section 4.3): the external library parses a
normalized range string into a composition tree of primitive comparison
nodes; the code only ever consumes the first primitive node (its operator
and target version), so the model returns exactly that pair, or `none`
when range construction fails (raising `ValueError` in Python; per the
source's own comment, the library cannot parse `latest`, `next` or the
empty string).  Partial-version corner semantics (`>1.2`-style bumping)
are approximated by filling missing components with zero. -/

/-- A possibly partial version inside a range: missing or wildcard
components are `none`. -/
structure RangeVer where
  major : Option Nat
  minor : Option Nat
  patch : Option Nat
  pre : List PreId
deriving DecidableEq, Repr

/-- Fill missing components with zero to obtain the range's anchor. -/
def fillVer (r : RangeVer) : SemVer :=
  ⟨r.major.getD 0, r.minor.getD 0, r.patch.getD 0, r.pre⟩

/-- All three numeric components present (a full, non-wildcard version). -/
def isFullNum (r : RangeVer) : Bool :=
  r.major.isSome && r.minor.isSome && r.patch.isSome

/-- One version component: `*` means wildcard, otherwise a strict number. -/
def parseComp (l : List Char) : Option (Option Nat) :=
  if l = ['*'] then some none else (parseNatStrict l).map some

/-- Parse a possibly partial version `M[.m[.p]][-pre]`. -/
def parseRangeVer (l : List Char) : Option RangeVer :=
  match splitOnCh '-' l with
  | [] => none
  | core :: rest =>
    let hasPre := !rest.isEmpty
    match splitOnCh '.' core with
    | [a] => do
      let x ← parseComp a
      if hasPre then none else some ⟨x, none, none, []⟩
    | [a, b] => do
      let x ← parseComp a
      let y ← parseComp b
      if hasPre then none else some ⟨x, y, none, []⟩
    | [a, b, c] => do
      let x ← parseComp a
      let y ← parseComp b
      let z ← parseComp c
      if hasPre then do
        let pre ← parsePre (joinDash rest)
        some ⟨x, y, z, pre⟩
      else some ⟨x, y, z, []⟩
    | _ => none

/-- Leading range operator of one simple constraint, and the remainder. -/
def stripOpTok : List Char → String × List Char
  | '>' :: '=' :: rest => (">=", rest)
  | '<' :: '=' :: rest => ("<=", rest)
  | '^' :: rest => ("^", rest)
  | '~' :: rest => ("~", rest)
  | '>' :: rest => (">", rest)
  | '<' :: rest => ("<", rest)
  | '=' :: rest => ("=", rest)
  | rest => ("", rest)

/-- First primitive comparison node produced by one simple constraint:
caret, tilde and partial versions expand with a `>=` lower bound at the
filled version; a full exact version gives `==`. -/
def simpleFirstRange (s : List Char) : Option (String × SemVer) := do
  let (op, rest) := stripOpTok s
  let rv ← parseRangeVer rest
  match op with
  | "^" => some ((">="), fillVer rv)
  | "~" => some ((">="), fillVer rv)
  | ">=" => some ((">="), fillVer rv)
  | ">" => some ((">"), fillVer rv)
  | "<" => some (("<"), fillVer rv)
  | "<=" => some (("<="), fillVer rv)
  | _ => if isFullNum rv then some (("=="), fillVer rv) else some ((">="), fillVer rv)

/-- First primitive node of one `||`-free block (hyphen range or a
space-separated conjunction of simple constraints); `none` when the
block fails to parse. -/
def blockFirstRange (b : List Char) : Option (String × SemVer) :=
  if containsC b [' ', '-', ' '] then
    match splitHyRange b with
    | x :: y :: _ => do
      let rx ← parseRangeVer (trimC x)
      let _ ← parseRangeVer (trimC y)
      some ((">="), fillVer rx)
    | _ => none
  else
    match (splitOnCh ' ' b).filter (fun t => !t.isEmpty) with
    | [] => none
    | t :: rest => do
      let fr ← simpleFirstRange t
      let _ ← rest.mapM simpleFirstRange
      some fr

/-- Modelled from the spec: `NpmSpec(s)` construction. Returns the first
primitive node's operator and target when every `||`-separated block
parses, `none` when construction raises. -/
def npmParse (s : String) : Option (String × SemVer) :=
  match (splitBars s.data).map trimC with
  | [] => none
  | b :: rest => do
    let fr ← blockFirstRange b
    let _ ← rest.mapM blockFirstRange
    some fr

/-! ## Embedded source: constants and string helpers -/

/-- Source `DEPENDENCY_KEYS`: manifest keys that get semver-aware merge. -/
def DEPENDENCY_KEYS : List String :=
  ["dependencies", "devDependencies", "peerDependencies",
   "optionalDependencies", "bundledDependencies", "bundleDependencies"]

/-- Membership in `DEPENDENCY_KEYS`. -/
def isDepKey (k : String) : Bool := DEPENDENCY_KEYS.contains k

/-- Source `SPECIAL_PROTOCOLS`: non-semver protocol markers matched as
substrings. -/
def SPECIAL_PROTOCOLS : List String :=
  ["workspace:", "git+", "http://", "https://", "file:", "github:"]

/-- Whether any protocol marker occurs as a substring of `s`. -/
def hasProtocolAny (s : String) : Bool :=
  SPECIAL_PROTOCOLS.any (fun p => containsC s.data p.data)

/-- Source `normalize_npm_version`: pass special tokens and protocol
strings through untouched, otherwise rewrite wildcard characters to 0. -/
def normalizeNpmVersion (s : String) : String :=
  if s = "*" || s = "latest" || s = "next" || s = "" then s
  else if hasProtocolAny s then s
  else String.mk (replaceCh 'X' '0' (replaceCh 'x' '0' s.data))

/-- Source `get_version_prefix`: the leading operator token, matching
two-character operators before one-character ones, defaulting to `=`. -/
def getVersionPfx (s : String) : String :=
  if ['^'].isPrefixOf s.data then "^"
  else if ['~'].isPrefixOf s.data then "~"
  else if ['>', '='].isPrefixOf s.data then ">="
  else if ['<', '='].isPrefixOf s.data then "<="
  else if ['>'].isPrefixOf s.data then ">"
  else if ['<'].isPrefixOf s.data then "<"
  else "="

/-- Source `PREFIX_PRIORITY` lookup with its `.get(op, 0)` default:
caret 4, tilde 3, `>=` 2, `>` 1, everything else (`=`, `<=`, `<`, and
the library's `==`) 0. -/
def opPriority (op : String) : Nat :=
  if op = "^" then 4
  else if op = "~" then 3
  else if op = ">=" then 2
  else if op = ">" then 1
  else 0

/-- Source `get_operator_from_range`: the operator of the first primitive
node of a parsed spec (in the model every parsed spec has one). -/
def getOperatorFromRange (spec : String × SemVer) : String := spec.1

/-- Source `_search_spec_clause_for_version`: the target version of the
first primitive node (in the model every parsed spec has one). -/
def searchSpecClauseForVersion (spec : String × SemVer) : Option SemVer :=
  some spec.2

/-- Characters stripped by the fallback's `re.sub(r"^[\^~>=<]+", "", s)`. -/
def stripLeadingOps (l : List Char) : List Char :=
  l.dropWhile (fun c => c = '^' || c = '~' || c = '>' || c = '=' || c = '<')

/-- Source `_extract_version_from_spec`, textual fallback (lines
204-227): strip operators, cut at `||`, at `" - "` and at the first
space, rewrite wildcards, and try a bare version parse. (Unreachable
when the clause walk already produced a version.) -/
def extractFallbackText (original : String) : Option SemVer :=
  let cleaned := stripLeadingOps original.data
  let cleaned :=
    if containsC cleaned ['|', '|'] then trimC ((splitBars cleaned).headD [])
    else cleaned
  let cleaned :=
    if containsC cleaned [' ', '-', ' '] then trimC ((splitHyRange cleaned).headD [])
    else cleaned
  let cleaned :=
    if containsC cleaned [' '] then
      trimC (((splitOnCh ' ' cleaned).filter (fun t => !t.isEmpty)).headD [])
    else trimC cleaned
  versionParse (replaceCh 'X' '0' (replaceCh 'x' '0' cleaned))

/-- Source `_extract_version_from_spec`: special tokens and protocol
strings yield no anchor; otherwise walk the parsed spec for the first
primitive node's target, falling back to textual extraction. -/
def extractVersionFromSpec (spec : String × SemVer) (original : String) : Option SemVer :=
  if original = "*" || original = "latest" || original = "" || original = "next" then none
  else if hasProtocolAny original then none
  else
    match searchSpecClauseForVersion spec with
    | some v => some v
    | none => extractFallbackText original

/-- Source `compare_npm_specs`: parse both sides (any construction
failure is caught and yields 0), extract anchors, and compare: absent
anchor wins, otherwise higher anchor wins. -/
def compareNpmSpecs (baseVersion updateVersion : String) : Int :=
  match npmParse (normalizeNpmVersion baseVersion),
        npmParse (normalizeNpmVersion updateVersion) with
  | some baseSpec, some updateSpec =>
    match extractVersionFromSpec baseSpec baseVersion,
          extractVersionFromSpec updateSpec updateVersion with
    | none, none => 0
    | none, some _ => 1
    | some _, none => -1
    | some bv, some uv =>
      if semverLtB bv uv then 1
      else if semverLtB uv bv then -1
      else 0
  | _, _ => 0

/-- The effective operator used by the tie-breaker: the literal prefix
when it is caret or tilde, otherwise the operator of the first primitive
node of the parsed spec. -/
def effectiveOp (s : String) (spec : String × SemVer) : String :=
  let pfx := getVersionPfx s
  if pfx = "^" || pfx = "~" then pfx else getOperatorFromRange spec

/-- Source `merge_dependency_versions`, tie branch (lines 316-339):
reparse both sides and prefer the higher operator priority; base wins
ties; any construction failure prefers the update. -/
def tieBreak (baseVersion updateVersion : String) : String :=
  match npmParse (normalizeNpmVersion baseVersion),
        npmParse (normalizeNpmVersion updateVersion) with
  | some baseSpec, some updateSpec =>
    if opPriority (effectiveOp updateVersion updateSpec) >
        opPriority (effectiveOp baseVersion baseSpec) then updateVersion
    else baseVersion
  | _, _ => updateVersion

/-- Pure wildcard tokens of the special-case rule. -/
def isWildTok (s : String) : Bool := s = "*" || s = "latest"

/-- Source `merge_dependency_versions`: wildcard rule, protocol rule,
then comparator and tie-breaker. -/
def mergeDependencyVersions (baseVersion updateVersion : String) : String :=
  if isWildTok baseVersion && !isWildTok updateVersion then updateVersion
  else if isWildTok updateVersion && !isWildTok baseVersion then baseVersion
  else if hasProtocolAny baseVersion || hasProtocolAny updateVersion then updateVersion
  else
    let comparison := compareNpmSpecs baseVersion updateVersion
    if comparison > 0 then updateVersion
    else if comparison < 0 then baseVersion
    else tieBreak baseVersion updateVersion

/-! ## Python value semantics on JSON values

Models of Python's `==`, `<`, hashability and `sorted` on the values a
JSON document can hold. Booleans compare numerically with integers, as
in Python. Object (dict) equality is modelled structurally on the
ordered field list, an approximation that is only reachable through
comparisons of arrays nested inside arrays. -/

/-- Numeric view: Python treats booleans as the integers 0 and 1. -/
def numV : JVal → Option Int
  | .int n => some n
  | .bool b => some (if b then 1 else 0)
  | _ => none

mutual

/-- Python `==` on JSON values (total: equality never raises). -/
def pyEqB (a b : JVal) : Bool :=
  match numV a, numV b with
  | some x, some y => x == y
  | _, _ =>
    match a, b with
    | .str s, .str t => s == t
    | .null, .null => true
    | .arr xs, .arr ys => pyEqList xs ys
    | .obj xs, .obj ys => pyEqObj xs ys
    | _, _ => false

/-- Elementwise Python `==` on arrays. -/
def pyEqList : List JVal → List JVal → Bool
  | [], [] => true
  | x :: xs, y :: ys => pyEqB x y && pyEqList xs ys
  | _, _ => false

/-- Fieldwise Python `==` on objects (structural model). -/
def pyEqObj : List (String × JVal) → List (String × JVal) → Bool
  | [], [] => true
  | (k, v) :: xs, (k2, v2) :: ys => k == k2 && pyEqB v v2 && pyEqObj xs ys
  | _, _ => false

end

mutual

/-- Python `<` on JSON values: numbers and strings compare within their
kind, arrays compare lexicographically, and every other combination
raises `TypeError`. -/
def pyLt (a b : JVal) : Except PyErr Bool :=
  match numV a, numV b with
  | some x, some y => .ok (decide (x < y))
  | _, _ =>
    match a, b with
    | .str s, .str t => .ok (charsLtB s.data t.data)
    | .arr xs, .arr ys => pyLtList xs ys
    | _, _ => .error .typeErr

/-- Lexicographic Python `<` on arrays: step over `==`-equal heads, then
decide (or raise) at the first mismatch; a proper prefix is smaller. -/
def pyLtList : List JVal → List JVal → Except PyErr Bool
  | [], [] => .ok false
  | [], _ :: _ => .ok true
  | _ :: _, [] => .ok false
  | x :: xs, y :: ys => if pyEqB x y then pyLtList xs ys else pyLt x y

end

/-- Result of a comparison that did not raise, defaulting to false. -/
def exceptOkB : Except PyErr Bool → Bool
  | .ok t => t
  | .error _ => false

/-- Whether an embedded operation succeeded. -/
def exceptIsOk {α : Type} : Except PyErr α → Bool
  | .ok _ => true
  | .error _ => false

/-- Python `<` as a Bool (false when the comparison raises). -/
def pyLtB (a b : JVal) : Bool := exceptOkB (pyLt a b)

/-- Non-strict comparison used to state sortedness. -/
def pyLeB (a b : JVal) : Bool := pyLtB a b || pyEqB a b

/-- Whether Python `<` is defined (does not raise) on the pair. -/
def pyCompB (a b : JVal) : Bool := exceptIsOk (pyLt a b)

/-- Every unordered pair of list elements supports Python `<`. -/
def allCompB : List JVal → Bool
  | [] => true
  | x :: xs => xs.all (fun y => pyCompB x y) && allCompB xs

/-- Python hashability: containers are unhashable, scalars hashable. -/
def pyHashB : JVal → Bool
  | .arr _ => false
  | .obj _ => false
  | _ => true

/-- Python set membership (by `==`). -/
def pyMemB (x : JVal) (l : List JVal) : Bool := l.any (fun y => pyEqB y x)

/-- Set-insertion dedup keeping first occurrences, as CPython's
`list(set(...))` keeps the first-inserted of `==`-equal elements. -/
def pyDedupAux (seen : List JVal) : List JVal → List JVal
  | [] => []
  | x :: xs =>
    if pyMemB x seen then pyDedupAux seen xs
    else x :: pyDedupAux (x :: seen) xs

/-- Dedup of `list(set(merged_list))` (order of survivors then feeds a
sort, so only the set of survivors is observable). -/
def pyDedup (l : List JVal) : List JVal := pyDedupAux [] l

/-- Ascending stable insertion under Python `<`/`==`. -/
def insLe (x : JVal) : List JVal → List JVal
  | [] => [x]
  | y :: ys => if pyLeB x y then x :: y :: ys else y :: insLe x ys

/-- Ascending stable sort under Python `<` (Timsort's result on inputs
where the needed comparisons are defined). -/
def sortLe : List JVal → List JVal
  | [] => []
  | x :: xs => insLe x (sortLe xs)

/-- Python `sorted`: raises `TypeError` when some pair of elements does
not support `<` (model: any unordered pair; CPython compares along the
list, which reaches an undefined pair in all realistic shapes), and
otherwise returns the ascending stable sort. -/
def sortE (l : List JVal) : Except PyErr (List JVal) :=
  if allCompB l then .ok (sortLe l) else .error .typeErr

/-- Source lines 413-418: concatenation already done by the caller;
dedup only when every element is hashable (`suppress(TypeError)` covers
only `list(set(...))`), then an unprotected `sorted`. -/
def listMergeGeneric (l : List JVal) : Except PyErr (List JVal) :=
  sortE (if l.all pyHashB then pyDedup l else l)

/-! ## Overrides dedup (source lines 391-411) -/

/-- The `files` value of an array element that is an object carrying
one (`isinstance(item, dict) and "files" in item`). -/
def filesOf : JVal → Option JVal
  | .obj o => lookupA o "files"
  | _ => none

/-- Whether a value is a string. -/
def isStrJ : JVal → Bool
  | .str _ => true
  | _ => false

/-- Characters of a string value (meaningful only on strings). -/
def strOfJ : JVal → List Char
  | .str s => s.data
  | _ => []

/-- Source `":".join(sorted(item["files"]))`: iterate, sort and join the
`files` value. A list of strings sorts and joins; a string iterates to
its characters; a dict iterates to its keys; a list with a non-string
element raises `TypeError` (from the sort or the join), and a
non-iterable raises `TypeError` in `sorted`. -/
def dedupKeyOf (files : JVal) : Except PyErr String :=
  match files with
  | .arr fs =>
    if fs.all isStrJ then .ok (String.mk (joinColon (sortStrs (fs.map strOfJ))))
    else .error .typeErr
  | .str s => .ok (String.mk (joinColon (sortStrs (s.data.map (fun c => [c])))))
  | .obj o => .ok (String.mk (joinColon (sortStrs ((o.map Prod.fst).map String.data))))
  | _ => .error .typeErr

/-- First overrides pass: insert every base element carrying `files`
into the identity table (later base entries overwrite earlier ones at
the same identity, keeping the original position). -/
def ovAddBase (dd : List (String × JVal)) : List JVal → Except PyErr (List (String × JVal))
  | [] => .ok dd
  | item :: rest =>
    match filesOf item with
    | some fv =>
      match dedupKeyOf fv with
      | .ok k => ovAddBase (upsertA dd k item) rest
      | .error e => .error e
    | none => ovAddBase dd rest

/-- Second overrides pass: insert update elements only at identities not
already present. -/
def ovAddUpd (dd : List (String × JVal)) : List JVal → Except PyErr (List (String × JVal))
  | [] => .ok dd
  | item :: rest =>
    match filesOf item with
    | some fv =>
      match dedupKeyOf fv with
      | .ok k =>
        if (lookupA dd k).isSome then ovAddUpd dd rest
        else ovAddUpd (dd ++ [(k, item)]) rest
      | .error e => .error e
    | none => ovAddUpd dd rest

/-- Ascending stable insertion of an identity-keyed entry. -/
def insPair (x : String × JVal) : List (String × JVal) → List (String × JVal)
  | [] => [x]
  | y :: ys => if !charsLtB y.1.data x.1.data then x :: y :: ys else y :: insPair x ys

/-- Sort the identity table by identity string, ascending
(`dict(sorted(dedup_dict.items()))`; identities are unique, so the
item tuples never compare beyond their first components). -/
def sortPairs : List (String × JVal) → List (String × JVal)
  | [] => []
  | x :: xs => insPair x (sortPairs xs)

/-- Overrides merge: base pass, update pass, then values in ascending
identity order; elements without a `files` field are dropped. -/
def ovMerge (ba ua : List JVal) : Except PyErr (List JVal) :=
  match ovAddBase [] ba with
  | .error e => .error e
  | .ok dd =>
    match ovAddUpd dd ua with
    | .error e => .error e
    | .ok dd2 => .ok ((sortPairs dd2).map Prod.snd)

/-! ## Dependency merging on document values

`merge_dependency_versions` is typed for strings but is invoked on
whatever values the documents hold; the embedding reproduces what the
Python operations do on each value shape, including the exceptions. -/

/-- Whether a document value is one of the pure wildcard tokens (the
tuple membership test `v in ("*", "latest")` only matches strings). -/
def isWildJ : JVal → Bool
  | .str s => isWildTok s
  | _ => false

/-- Python `any(protocol in v for protocol in SPECIAL_PROTOCOLS)` on a
document value: substring test on strings, element membership on lists,
key membership on dicts, `TypeError` on non-iterables. -/
def protoInJ : JVal → Except PyErr Bool
  | .str s => .ok (hasProtocolAny s)
  | .arr l => .ok (SPECIAL_PROTOCOLS.any (fun p => l.any (fun e => pyEqB e (.str p))))
  | .obj o => .ok (SPECIAL_PROTOCOLS.any (fun p => (o.map Prod.fst).contains p))
  | _ => .error .typeErr

/-- Source `merge_dependency_versions` on document values: the wildcard
rules fire only on strings; the protocol test raises on non-iterables
(short-circuiting left to right); two strings run the string merger; any
other surviving combination makes both the comparator and the
tie-breaker take their exception paths, so the update wins. -/
def mergeDependencyVersionsJ (bv uv : JVal) : Except PyErr JVal :=
  if isWildJ bv && !isWildJ uv then .ok uv
  else if isWildJ uv && !isWildJ bv then .ok bv
  else
    match protoInJ bv with
    | .error e => .error e
    | .ok pb =>
      if pb then .ok uv
      else
        match protoInJ uv with
        | .error e => .error e
        | .ok pu =>
          if pu then .ok uv
          else
            match bv, uv with
            | .str sb, .str su => .ok (.str (mergeDependencyVersions sb su))
            | _, _ => .ok uv

/-- Fold of source `merge_dependencies`' loop over `updates.items()`:
keys already present are merged in place, new keys are appended. -/
def mergeDepList (result : List (String × JVal)) :
    List (String × JVal) → Except PyErr (List (String × JVal))
  | [] => .ok result
  | (k, v) :: rest =>
    match lookupA result k with
    | some bv =>
      match mergeDependencyVersionsJ bv v with
      | .ok m => mergeDepList (upsertA result k m) rest
      | .error e => .error e
    | none => mergeDepList (result ++ [(k, v)]) rest

/-- Source `merge_dependencies` on document values: `base.copy()` raises
`AttributeError` unless base is a dict or a list, `updates.items()`
raises `AttributeError` unless updates is a dict, and a list base with a
nonempty updates dict raises `TypeError` at the first indexing. -/
def mergeDependenciesJ (base updates : JVal) : Except PyErr JVal :=
  match base, updates with
  | .obj b, .obj u =>
    match mergeDepList b u with
    | .ok r => .ok (.obj r)
    | .error e => .error e
  | .arr l, .obj [] => .ok (.arr l)
  | .arr _, .obj (_ :: _) => .error .typeErr
  | .arr _, _ => .error .attrErr
  | .obj _, _ => .error .attrErr
  | _, _ => .error .attrErr

/-! ## Generic deep merge (source `_deep_merge_value` / `deep_merge`) -/

/-- The `--list-strategy` selector. -/
inductive ListStrategy where
  | replace
  | merge
deriving DecidableEq

mutual

/-- Source `_deep_merge_value` for a key present in both documents:
dependency keys delegate (with no shape check), two objects recurse, two
arrays follow the list strategy, everything else is replaced by the
update value. -/
def mergeKeyVal (ls : ListStrategy) (key : String) (baseVal value : JVal) :
    Except PyErr JVal :=
  if isDepKey key then mergeDependenciesJ baseVal value
  else
    match baseVal, value with
    | .obj bo, .obj uo =>
      match deepMergeList ls bo uo with
      | .ok r => .ok (.obj r)
      | .error e => .error e
    | .arr ba, .arr ua =>
      match ls with
      | .merge =>
        if key = "overrides" then
          match ovMerge ba ua with
          | .ok r => .ok (.arr r)
          | .error e => .error e
        else
          match listMergeGeneric (ba ++ ua) with
          | .ok r => .ok (.arr r)
          | .error e => .error e
      | .replace => .ok (.arr ua)
    | _, _ => .ok value

/-- Source `deep_merge`'s loop: start from a copy of the base and apply
`_deep_merge_value` for each update key in order; a key absent from the
running result is appended. -/
def deepMergeList (ls : ListStrategy) (result : List (String × JVal)) :
    List (String × JVal) → Except PyErr (List (String × JVal))
  | [] => .ok result
  | (k, v) :: rest =>
    match lookupA result k with
    | none => deepMergeList ls (result ++ [(k, v)]) rest
    | some bv =>
      match mergeKeyVal ls k bv v with
      | .ok m => deepMergeList ls (upsertA result k m) rest
      | .error e => .error e

end

/-- Source `deep_merge` on two documents. -/
def deepMerge (base updates : List (String × JVal)) (ls : ListStrategy) :
    Except PyErr (List (String × JVal)) :=
  deepMergeList ls base updates

/-! ## Top-level file merge (source `merge_package_json_files`)

File reading is abstracted by a load function; `load_package_json`'s
root check (the content must be a JSON object) is kept. -/

/-- Source `load_package_json`: load, then require an object root. -/
def loadRoot {α : Type} (loadFn : α → Except PyErr JVal) (p : α) :
    Except PyErr (List (String × JVal)) :=
  match loadFn p with
  | .ok (.obj o) => .ok o
  | .ok _ => .error .typeErr
  | .error e => .error e

/-- Fold of the remaining files onto the running result. -/
def mergeFilesGo {α : Type} (loadFn : α → Except PyErr JVal) (ls : ListStrategy)
    (acc : List (String × JVal)) : List α → Except PyErr (List (String × JVal))
  | [] => .ok acc
  | p :: rest =>
    match loadRoot loadFn p with
    | .ok u =>
      match deepMerge acc u ls with
      | .ok r => mergeFilesGo loadFn ls r rest
      | .error e => .error e
    | .error e => .error e

/-- Source `merge_package_json_files`: an empty path list returns the
empty object before any load; otherwise load the first file and fold
`deep_merge` over the rest in order. -/
def mergePackageJsonFiles {α : Type} (loadFn : α → Except PyErr JVal)
    (filepaths : List α) (ls : ListStrategy) :
    Except PyErr (List (String × JVal)) :=
  match filepaths with
  | [] => .ok []
  | p :: rest =>
    match loadRoot loadFn p with
    | .ok first => mergeFilesGo loadFn ls first rest
    | .error e => .error e

/-! ## Well-formedness of documents

Sufficient conditions under which the deep merge cannot raise: keys are
unique at every object level, dependency-key values are string-valued
objects, overrides arrays carry sortable string `files`, and other
arrays hold strings only. -/

/-- Whether a value is an object. -/
def isObjB : JVal → Bool
  | .obj _ => true
  | _ => false

/-- Whether a value is an array. -/
def isArrB : JVal → Bool
  | .arr _ => true
  | _ => false

/-- Keys of an association list are pairwise distinct. -/
def nodupKeysB : List (String × JVal) → Bool
  | [] => true
  | (k, _) :: rest => !((rest.map Prod.fst).contains k) && nodupKeysB rest

/-- An object all of whose values are strings (a dependency mapping). -/
def isStrMapB : JVal → Bool
  | .obj o => o.all (fun p => isStrJ p.2)
  | _ => false

/-- An overrides array element whose identity computation cannot raise:
either it carries no `files` field (and is dropped), or its `files`
value joins into an identity string. -/
def filesEntryOkB (x : JVal) : Bool :=
  match filesOf x with
  | some f => exceptIsOk (dedupKeyOf f)
  | none => true

/-- Every element is a string. -/
def allStrB (l : List JVal) : Bool := l.all isStrJ

mutual

/-- Well-formedness of the value stored under key `k`. -/
def entryOkB (k : String) (v : JVal) : Bool :=
  if isDepKey k then isStrMapB v
  else if k = "overrides" then
    match v with
    | .arr a => a.all filesEntryOkB
    | .obj o => nodupKeysB o && objOkB o
    | _ => true
  else
    match v with
    | .obj o => nodupKeysB o && objOkB o
    | .arr a => allStrB a
    | _ => true

/-- Well-formedness of every entry of an object. -/
def objOkB : List (String × JVal) → Bool
  | [] => true
  | (k, v) :: rest => entryOkB k v && objOkB rest

end

/-- Well-formedness of a whole document. -/
def wfDocB (l : List (String × JVal)) : Bool := nodupKeysB l && objOkB l

/-! ## Order lemmas for the embedded comparisons -/

lemma charToNatInj (a b : Char) (h : a.toNat = b.toNat) : a = b :=
  Char.eq_of_val_eq (UInt32.ext h)

lemma charToNatTri (a b : Char) (h : a ≠ b) : a.toNat < b.toNat ∨ b.toNat < a.toNat := by
  rcases Nat.lt_trichotomy a.toNat b.toNat with h1 | h1 | h1
  · exact Or.inl h1
  · exact absurd (charToNatInj a b h1) h
  · exact Or.inr h1

lemma charsLtB_irrefl : ∀ l, charsLtB l l = false
  | [] => rfl
  | c :: cs => by simp [charsLtB, charsLtB_irrefl cs]

lemma charsLtB_connex : ∀ l m, l ≠ m → charsLtB l m = true ∨ charsLtB m l = true
  | [], [], h => absurd rfl h
  | [], _ :: _, _ => Or.inl rfl
  | _ :: _, [], _ => Or.inr rfl
  | c :: cs, d :: ds, h => by
    by_cases hc : c = d
    · subst hc
      have ht : cs ≠ ds := fun he => h (by rw [he])
      rcases charsLtB_connex cs ds ht with h1 | h1
      · left; simpa [charsLtB] using h1
      · right; simpa [charsLtB] using h1
    · rcases charToNatTri c d hc with h1 | h1
      · left; simp [charsLtB, hc, h1]
      · right; simp [charsLtB, Ne.symm hc, h1]

lemma preIdLtB_irrefl : ∀ x, preIdLtB x x = false
  | .num n => by simp [preIdLtB]
  | .alpha s => by simp [preIdLtB, charsLtB_irrefl]

lemma preIdLtB_connex : ∀ x y, x ≠ y → preIdLtB x y = true ∨ preIdLtB y x = true
  | .num m, .num n, h => by
    have hmn : m ≠ n := fun he => h (by rw [he])
    rcases Nat.lt_trichotomy m n with h1 | h1 | h1
    · left; simp [preIdLtB, h1]
    · exact absurd h1 hmn
    · right; simp [preIdLtB, h1]
  | .num _, .alpha _, _ => Or.inl rfl
  | .alpha _, .num _, _ => Or.inr rfl
  | .alpha s, .alpha t, h => by
    have hst : s ≠ t := fun he => h (by rw [he])
    rcases charsLtB_connex s t hst with h1 | h1
    · left; simpa [preIdLtB] using h1
    · right; simpa [preIdLtB] using h1

lemma preLtB_irrefl : ∀ l, preLtB l l = false
  | [] => rfl
  | x :: xs => by simp [preLtB, preIdLtB_irrefl, preLtB_irrefl xs]

lemma preLtB_connex : ∀ l m, l ≠ m → preLtB l m = true ∨ preLtB m l = true
  | [], [], h => absurd rfl h
  | [], _ :: _, _ => Or.inr rfl
  | _ :: _, [], _ => Or.inl rfl
  | x :: xs, y :: ys, h => by
    by_cases hx : x = y
    · subst hx
      have ht : xs ≠ ys := fun he => h (by rw [he])
      rcases preLtB_connex xs ys ht with h1 | h1
      · left; simp [preLtB, preIdLtB_irrefl, h1]
      · right; simp [preLtB, preIdLtB_irrefl, h1]
    · rcases preIdLtB_connex x y hx with h1 | h1
      · left; simp [preLtB, h1]
      · right; simp [preLtB, h1]

lemma semverLtB_irrefl (a : SemVer) : semverLtB a a = false := by
  simp [semverLtB, preLtB_irrefl]

lemma semverLtB_connex : ∀ a b : SemVer, a ≠ b → semverLtB a b = true ∨ semverLtB b a = true := by
  rintro ⟨am, ai, ap, ar⟩ ⟨bm, bi, bp, br⟩ h
  by_cases h1 : am = bm
  · subst h1
    by_cases h2 : ai = bi
    · subst h2
      by_cases h3 : ap = bp
      · subst h3
        have hr : ar ≠ br := by
          intro he
          exact h (by rw [he])
        rcases preLtB_connex ar br hr with h4 | h4
        · left; simp [semverLtB, h4]
        · right; simp [semverLtB, h4]
      · rcases Nat.lt_trichotomy ap bp with h4 | h4 | h4
        · left; simp [semverLtB, h3, h4]
        · exact absurd h4 h3
        · right; simp [semverLtB, Ne.symm h3, h4]
    · rcases Nat.lt_trichotomy ai bi with h4 | h4 | h4
      · left; simp [semverLtB, h2, h4]
      · exact absurd h4 h2
      · right; simp [semverLtB, Ne.symm h2, h4]
  · rcases Nat.lt_trichotomy am bm with h4 | h4 | h4
    · left; simp [semverLtB, h1, h4]
    · exact absurd h4 h1
    · right; simp [semverLtB, Ne.symm h1, h4]

/-! ## Helper lemmas about the merge pipeline -/

lemma tieBreak_eq_or (b u : String) : tieBreak b u = b ∨ tieBreak b u = u := by
  unfold tieBreak
  cases hb : npmParse (normalizeNpmVersion b) with
  | none => simp
  | some sb =>
    cases hu : npmParse (normalizeNpmVersion u) with
    | none => simp
    | some su =>
      by_cases h : opPriority (effectiveOp u su) > opPriority (effectiveOp b sb)
      · right; simp [h]
      · left; simp [h]

/-! ## Claim C10 -/

/-- C10: `merge_package_json_files` applied to an empty list of file
paths returns the empty object, whatever the load function and list
strategy — no file is read and no merge step runs. -/
theorem merge_files_empty_returns_empty_object (α : Type)
    (loadFn : α → Except PyErr JVal) (ls : ListStrategy) :
    mergePackageJsonFiles loadFn [] ls = .ok [] := rfl

/-! ## Claim C9 -/

/-- C9: when the update string is not a wildcard token, contains no
protocol marker and its range-spec construction fails, while the base
parses, `merge_dependency_versions` returns the update string: the
comparator's exception path yields a tie and the tie-breaker's failure
default prefers the update. -/
theorem unparsable_update_displaces_base (b u : String)
    (hb : (npmParse (normalizeNpmVersion b)).isSome = true)
    (hw : isWildTok u = false)
    (hp : hasProtocolAny u = false)
    (hu : npmParse (normalizeNpmVersion u) = none) :
    mergeDependencyVersions b u = u := by
  obtain ⟨sb, hsb⟩ := Option.isSome_iff_exists.mp hb
  by_cases hwb : isWildTok b = true
  · simp [mergeDependencyVersions, hwb, hw]
  · have hcmp : compareNpmSpecs b u = 0 := by
      simp [compareNpmSpecs, hsb, hu]
    have htie : tieBreak b u = u := by
      simp [tieBreak, hsb, hu]
    by_cases hpb : hasProtocolAny b = true
    · simp [mergeDependencyVersions, hwb, hw, hpb]
    · simp [mergeDependencyVersions, hwb, hw, hpb, hp, hcmp, htie]

/-- Witness for C9 at base `1.0.0`, update `next`. -/
theorem unparsable_update_displaces_base_witness :
    (npmParse (normalizeNpmVersion "1.0.0")).isSome = true ∧
    isWildTok "next" = false ∧ hasProtocolAny "next" = false ∧
    npmParse (normalizeNpmVersion "next") = none ∧
    mergeDependencyVersions "1.0.0" "next" = "next" :=
  ⟨rfl, rfl, rfl, rfl,
    unparsable_update_displaces_base "1.0.0" "next" rfl rfl rfl rfl⟩

/-! ## Claim C6 -/

/-- C6: `merge_dependency_versions` rule order — exactly one pure
wildcard side loses to the other side; past the wildcard rule, a
protocol marker on either side makes the update win; otherwise the
comparator and tie-breaker pick the winner; and in every case the
result is string-equal to one of the two inputs. -/
theorem merge_dependency_versions_rules :
    (∀ b u, isWildTok b = true → isWildTok u = false →
      mergeDependencyVersions b u = u) ∧
    (∀ b u, isWildTok u = true → isWildTok b = false →
      mergeDependencyVersions b u = b) ∧
    (∀ b u, isWildTok b = isWildTok u →
      (hasProtocolAny b = true ∨ hasProtocolAny u = true) →
      mergeDependencyVersions b u = u) ∧
    (∀ b u, isWildTok b = isWildTok u → hasProtocolAny b = false →
      hasProtocolAny u = false →
      mergeDependencyVersions b u =
        (if compareNpmSpecs b u > 0 then u
         else if compareNpmSpecs b u < 0 then b
         else tieBreak b u)) ∧
    (∀ b u, mergeDependencyVersions b u = b ∨ mergeDependencyVersions b u = u) := by
  refine ⟨?_, ?_, ?_, ?_, ?_⟩
  · intro b u hb hu
    simp [mergeDependencyVersions, hb, hu]
  · intro b u hu hb
    simp [mergeDependencyVersions, hb, hu]
  · intro b u hbu hp
    have h1 : (isWildTok b && !isWildTok u) = false := by
      rw [hbu]; cases isWildTok u <;> simp
    have h2 : (isWildTok u && !isWildTok b) = false := by
      rw [← hbu]; cases isWildTok b <;> simp
    rcases hp with hp | hp
    · simp [mergeDependencyVersions, h1, h2, hp]
    · simp [mergeDependencyVersions, h1, h2, hp]
  · intro b u hbu hpb hpu
    have h1 : (isWildTok b && !isWildTok u) = false := by
      rw [hbu]; cases isWildTok u <;> simp
    have h2 : (isWildTok u && !isWildTok b) = false := by
      rw [← hbu]; cases isWildTok b <;> simp
    simp [mergeDependencyVersions, h1, h2, hpb, hpu]
  · intro b u
    by_cases h1 : (isWildTok b && !isWildTok u) = true
    · right; simp [mergeDependencyVersions, h1]
    · by_cases h2 : (isWildTok u && !isWildTok b) = true
      · left; simp [mergeDependencyVersions, h1, h2]
      · by_cases h3 : (hasProtocolAny b || hasProtocolAny u) = true
        · right; simp [mergeDependencyVersions, h1, h2, h3]
        · rcases Int.lt_trichotomy 0 (compareNpmSpecs b u) with hc | hc | hc
          · right
            simp [mergeDependencyVersions, h1, h2, h3, hc]
          · have hn1 : ¬ (compareNpmSpecs b u > 0) := by omega
            have hn2 : ¬ (compareNpmSpecs b u < 0) := by omega
            have := tieBreak_eq_or b u
            rcases this with ht | ht
            · left; simp [mergeDependencyVersions, h1, h2, h3, hn1, hn2, ht]
            · right; simp [mergeDependencyVersions, h1, h2, h3, hn1, hn2, ht]
          · left
            have hn1 : ¬ (compareNpmSpecs b u > 0) := by omega
            simp [mergeDependencyVersions, h1, h2, h3, hn1, hc]

/-- Witness for C6 on the spec's own examples: a wildcard base loses, a
wildcard update loses, and a protocol marker on the update wins. -/
theorem merge_dependency_versions_rules_witness :
    isWildTok "*" = true ∧ isWildTok "^2.0.0" = false ∧
    mergeDependencyVersions "*" "^2.0.0" = "^2.0.0" ∧
    mergeDependencyVersions "^2.0.0" "latest" = "^2.0.0" ∧
    mergeDependencyVersions "^2.0.0" "git+https://x" = "git+https://x" :=
  ⟨rfl, rfl,
    merge_dependency_versions_rules.1 "*" "^2.0.0" rfl rfl,
    merge_dependency_versions_rules.2.1 "^2.0.0" "latest" rfl rfl,
    merge_dependency_versions_rules.2.2.1 "^2.0.0" "git+https://x" rfl (Or.inr rfl)⟩

/-! ## Claim C4 -/

/-- C4: on a comparator tie the merger runs the tie-breaker; the
tie-breaker returns the update iff the update's operator priority is
strictly greater (base wins any tie, including equal tiers); any
failure while determining operators (range construction failing on
either side) returns the update; and the priority order is
caret, tilde, `>=`, `>`, exact-tier. -/
theorem operator_priority_tie_breaker :
    (∀ b u, isWildTok b = isWildTok u → hasProtocolAny b = false →
      hasProtocolAny u = false → compareNpmSpecs b u = 0 →
      mergeDependencyVersions b u = tieBreak b u) ∧
    (∀ b u sb su, npmParse (normalizeNpmVersion b) = some sb →
      npmParse (normalizeNpmVersion u) = some su →
      tieBreak b u =
        (if opPriority (effectiveOp u su) > opPriority (effectiveOp b sb)
         then u else b)) ∧
    (∀ b u, npmParse (normalizeNpmVersion b) = none ∨
      npmParse (normalizeNpmVersion u) = none → tieBreak b u = u) ∧
    (opPriority "^" > opPriority "~" ∧ opPriority "~" > opPriority ">=" ∧
     opPriority ">=" > opPriority ">" ∧ opPriority ">" > opPriority "=" ∧
     opPriority "=" = opPriority "<=" ∧ opPriority "<=" = opPriority "<") := by
  refine ⟨?_, ?_, ?_, by decide⟩
  · intro b u hbu hpb hpu hc
    have h1 : (isWildTok b && !isWildTok u) = false := by
      rw [hbu]; cases isWildTok u <;> simp
    have h2 : (isWildTok u && !isWildTok b) = false := by
      rw [← hbu]; cases isWildTok b <;> simp
    simp [mergeDependencyVersions, h1, h2, hpb, hpu, hc]
  · intro b u sb su hsb hsu
    simp [tieBreak, hsb, hsu]
  · intro b u h
    rcases h with h | h
    · simp [tieBreak, h]
    · cases hb : npmParse (normalizeNpmVersion b) with
      | none => simp [tieBreak, hb]
      | some sb => simp [tieBreak, hb, h]

/-- Witness for C4: `1.0.0` against `^1.0.0` is a comparator tie (equal
anchors); the caret's priority 4 beats the exact tier 0, so the update
wins the tie-break. -/
theorem operator_priority_tie_breaker_witness :
    compareNpmSpecs "1.0.0" "^1.0.0" = 0 ∧
    mergeDependencyVersions "1.0.0" "^1.0.0" = tieBreak "1.0.0" "^1.0.0" ∧
    tieBreak "1.0.0" "^1.0.0" = "^1.0.0" :=
  ⟨rfl,
    operator_priority_tie_breaker.1 "1.0.0" "^1.0.0" rfl rfl rfl rfl,
    (operator_priority_tie_breaker.2.1 "1.0.0" "^1.0.0"
      (("==") , (⟨1, 0, 0, []⟩ : SemVer)) ((">=") , (⟨1, 0, 0, []⟩ : SemVer))
      rfl rfl).trans rfl⟩

/-! ## Claim C3 -/

/-- Counterexample to C3: the claim requires the anchor rule to hold
even for strings whose structured parsing fails; for base `1.0.0`
against update `latest` the update anchor is absent, so the claim
prescribes -1. But range construction for `latest` raises before any
anchor is extracted, the exception path returns a tie, and the code
yields 0. -/
theorem comparator_latest_counterexample :
    compareNpmSpecs "1.0.0" "latest" = 0 ∧ (0 : Int) ≠ -1 :=
  ⟨rfl, by decide⟩

/-- C3 (amended): the anchor rule holds whenever range construction
succeeds on both sides — absent anchor wins, present anchors compare by
semantic-version precedence with ties exactly at equality; when
construction fails on either side the comparator returns 0. -/
theorem comparator_anchor_rule :
    (∀ b u sb su, npmParse (normalizeNpmVersion b) = some sb →
      npmParse (normalizeNpmVersion u) = some su →
      compareNpmSpecs b u =
        (match extractVersionFromSpec sb b, extractVersionFromSpec su u with
         | none, none => 0
         | none, some _ => 1
         | some _, none => -1
         | some bv, some uv =>
           if bv = uv then 0 else if semverLtB bv uv then 1 else -1)) ∧
    (∀ b u, npmParse (normalizeNpmVersion b) = none ∨
      npmParse (normalizeNpmVersion u) = none → compareNpmSpecs b u = 0) := by
  constructor
  · intro b u sb su hsb hsu
    cases hbv : extractVersionFromSpec sb b with
    | none =>
      cases huv : extractVersionFromSpec su u with
      | none => simp [compareNpmSpecs, hsb, hsu, hbv, huv]
      | some uv => simp [compareNpmSpecs, hsb, hsu, hbv, huv]
    | some bv =>
      cases huv : extractVersionFromSpec su u with
      | none => simp [compareNpmSpecs, hsb, hsu, hbv, huv]
      | some uv =>
        by_cases he : bv = uv
        · subst he
          simp [compareNpmSpecs, hsb, hsu, hbv, huv, semverLtB_irrefl]
        · by_cases hlt : semverLtB bv uv = true
          · simp [compareNpmSpecs, hsb, hsu, hbv, huv, hlt, he]
          · have hconn := semverLtB_connex bv uv he
            have hlt2 : semverLtB uv bv = true := by
              rcases hconn with h | h
              · exact absurd h hlt
              · exact h
            simp [compareNpmSpecs, hsb, hsu, hbv, huv, hlt, hlt2, he]
  · intro b u h
    rcases h with h | h
    · simp [compareNpmSpecs, h]
    · cases hb : npmParse (normalizeNpmVersion b) with
      | none => simp [compareNpmSpecs, hb]
      | some sb => simp [compareNpmSpecs, hb, h]

/-- Witness for C3 (amended) at `1.2.3` against `4.5.6`: both parse,
both anchors exist, and the strictly greater update anchor wins. -/
theorem comparator_anchor_rule_witness :
    npmParse (normalizeNpmVersion "1.2.3") = some (("==") , (⟨1, 2, 3, []⟩ : SemVer)) ∧
    compareNpmSpecs "1.2.3" "4.5.6" = 1 :=
  ⟨rfl,
    comparator_anchor_rule.1 "1.2.3" "4.5.6"
      (("==") , (⟨1, 2, 3, []⟩ : SemVer)) (("==") , (⟨4, 5, 6, []⟩ : SemVer)) rfl rfl⟩

/-! ## Claim C2 -/

/-- Counterexample to C2: for the dependency key with an array base and
an empty-object update the claim predicts unconditional replacement by
the update value `{}`, but the code delegates with no shape check and
`merge_dependencies` returns the copied base list. -/
theorem dep_key_no_shape_check_counterexample :
    mergeKeyVal .merge "dependencies" (.arr [.int 1]) (.obj []) =
      .ok (.arr [.int 1]) ∧
    (Except.ok (JVal.arr [JVal.int 1]) : Except PyErr JVal) ≠ .ok (.obj []) :=
  ⟨rfl, by simp⟩

/-- C2 (amended): delegation to the dependency merger happens whenever
the key is a designated dependency key, regardless of the value shapes;
the result is whatever `merge_dependencies` yields on those values (an
exception for most non-object combinations, but e.g. an array base with
an empty-object update returns the base array unchanged), never an
unconditional replacement. For non-dependency keys, any combination
that is neither two objects nor two arrays is replaced unconditionally
by the update value. -/
theorem deep_merge_value_dispatch :
    (∀ ls k bv v, isDepKey k = true →
      mergeKeyVal ls k bv v = mergeDependenciesJ bv v) ∧
    (∀ ls k bv v, isDepKey k = false → (isObjB bv && isObjB v) = false →
      (isArrB bv && isArrB v) = false → mergeKeyVal ls k bv v = .ok v) := by
  constructor
  · intro ls k bv v h
    unfold mergeKeyVal
    simp [h]
  · intro ls k bv v h h1 h2
    cases bv <;> cases v <;> unfold mergeKeyVal <;> simp_all [isObjB, isArrB]

/-- Witness for C2 (amended): a dependency key delegates on two string
values (raising), and a non-dependency key replaces a string base by an
integer update. -/
theorem deep_merge_value_dispatch_witness :
    isDepKey "devDependencies" = true ∧
    mergeKeyVal .merge "devDependencies" (.str "a") (.str "b") =
      mergeDependenciesJ (.str "a") (.str "b") ∧
    isDepKey "name" = false ∧
    mergeKeyVal .merge "name" (.str "a") (.int 2) = .ok (.int 2) :=
  ⟨rfl,
    deep_merge_value_dispatch.1 .merge "devDependencies" (.str "a") (.str "b") rfl,
    rfl,
    deep_merge_value_dispatch.2 .merge "name" (.str "a") (.int 2) rfl rfl rfl⟩

/-! ## Claim C1 -/

/-- Counterexample to C1: merging two documents whose `dependencies`
values are integers raises `AttributeError` (`(1).copy()`), so the deep
merge is not total over all value shapes. -/
theorem deep_merge_raises_counterexample :
    deepMerge [("dependencies", .int 1)] [("dependencies", .int 2)] .merge =
      .error .attrErr :=
  rfl

/-! ## Association-list lemmas -/

lemma lookupA_mem : ∀ {l : List (String × JVal)} {k : String} {v : JVal},
    lookupA l k = some v → (k, v) ∈ l := by
  intro l
  induction l with
  | nil => intro k v h; simp [lookupA] at h
  | cons p rest ih =>
    intro k v h
    obtain ⟨k2, v2⟩ := p
    by_cases hk : k2 = k
    · subst hk
      simp [lookupA] at h
      subst h
      exact List.mem_cons_self _ _
    · simp [lookupA, hk] at h
      exact List.mem_cons_of_mem _ (ih h)

lemma keysOf_upsertA_of_lookup : ∀ {l : List (String × JVal)} {k : String} {w : JVal}
    (v : JVal), lookupA l k = some w → keysOf (upsertA l k v) = keysOf l := by
  intro l
  induction l with
  | nil => intro k w v h; simp [lookupA] at h
  | cons p rest ih =>
    intro k w v h
    obtain ⟨k2, v2⟩ := p
    by_cases hk : k2 = k
    · simp [upsertA, hk, keysOf]
    · simp [lookupA, hk] at h
      simp [upsertA, hk, keysOf] at ih ⊢
      exact ih v h

lemma lookupA_upsertA_self : ∀ (l : List (String × JVal)) (k : String) (v : JVal),
    lookupA (upsertA l k v) k = some v := by
  intro l
  induction l with
  | nil => intro k v; simp [upsertA, lookupA]
  | cons p rest ih =>
    intro k v
    obtain ⟨k2, v2⟩ := p
    by_cases hk : k2 = k
    · simp [upsertA, hk, lookupA]
    · simp [upsertA, hk, lookupA, ih]

lemma lookupA_upsertA_ne : ∀ (l : List (String × JVal)) (k : String) (v : JVal)
    (k2 : String), k2 ≠ k → lookupA (upsertA l k v) k2 = lookupA l k2 := by
  intro l
  induction l with
  | nil => intro k v k2 h; simp [upsertA, lookupA, Ne.symm h]
  | cons p rest ih =>
    intro k v k2 h
    obtain ⟨k3, v3⟩ := p
    by_cases hk : k3 = k
    · subst hk
      simp [upsertA, lookupA, Ne.symm h]
    · simp [upsertA, hk, lookupA, ih k v k2 h]

lemma lookupA_append_ne (l : List (String × JVal)) (k : String) (v : JVal)
    (k2 : String) (h : k2 ≠ k) : lookupA (l ++ [(k, v)]) k2 = lookupA l k2 := by
  induction l with
  | nil => simp [lookupA, Ne.symm h]
  | cons p rest ih =>
    obtain ⟨k3, v3⟩ := p
    by_cases hk : k3 = k2
    · simp [lookupA, hk]
    · simp [lookupA, hk, ih]

lemma lookupA_append_self (l : List (String × JVal)) (k : String) (v : JVal)
    (h : lookupA l k = none) : lookupA (l ++ [(k, v)]) k = some v := by
  induction l with
  | nil => simp [lookupA]
  | cons p rest ih =>
    obtain ⟨k3, v3⟩ := p
    by_cases hk : k3 = k
    · simp [lookupA, hk] at h
    · simp [lookupA, hk] at h ⊢
      exact ih h

lemma keysOf_append1 (l : List (String × JVal)) (k : String) (v : JVal) :
    keysOf (l ++ [(k, v)]) = keysOf l ++ [k] := by
  simp [keysOf]

lemma upsertA_values (P : JVal → Prop) : ∀ (l : List (String × JVal)) (k : String)
    (v : JVal), (∀ p ∈ l, P p.2) → P v → ∀ p ∈ upsertA l k v, P p.2 := by
  intro l
  induction l with
  | nil =>
    intro k v _ hv p hp
    simp [upsertA] at hp
    rw [hp]
    exact hv
  | cons q rest ih =>
    intro k v hl hv p hp
    obtain ⟨k2, v2⟩ := q
    by_cases hk : k2 = k
    · simp [upsertA, hk] at hp
      rcases hp with hp | hp
      · rw [hp]; exact hv
      · exact hl p (List.mem_cons_of_mem _ hp)
    · simp [upsertA, hk] at hp
      rcases hp with hp | hp
      · rw [hp]
        exact hl (k2, v2) (List.mem_cons_self _ _)
      · exact ih k v (fun q hq => hl q (List.mem_cons_of_mem _ hq)) hv p hp

lemma contains_false_not_mem (l : List String) (k : String)
    (h : l.contains k = false) : k ∉ l := by
  intro hm
  simp [hm] at h

lemma contains_true_mem (l : List String) (k : String)
    (h : l.contains k = true) : k ∈ l := by
  simpa using h

lemma mem_lookupA_ne_none : ∀ (l : List (String × JVal)) (k : String) (w : JVal),
    (k, w) ∈ l → lookupA l k ≠ none := by
  intro l
  induction l with
  | nil => intro k w h; simp at h
  | cons p rest ih =>
    intro k w h
    obtain ⟨k2, v2⟩ := p
    by_cases hk : k2 = k
    · simp [lookupA, hk]
    · rcases List.mem_cons.mp h with he | he
      · exact absurd (congrArg Prod.fst he).symm hk
      · simp [lookupA, hk]
        exact ih k w he

lemma nodupKeysB_cons {k : String} {v : JVal} {rest : List (String × JVal)}
    (h : nodupKeysB ((k, v) :: rest) = true) :
    (rest.map Prod.fst).contains k = false ∧ nodupKeysB rest = true := by
  simp only [nodupKeysB, Bool.and_eq_true, Bool.not_eq_true'] at h
  exact h

/-! ## Dependency-map merge lemmas (claim C7) -/

lemma mergeDepList_keys : ∀ (u result r : List (String × JVal)),
    nodupKeysB u = true → mergeDepList result u = .ok r →
    keysOf r = keysOf result ++
      (keysOf u).filter (fun k => !((keysOf result).contains k)) := by
  intro u
  induction u with
  | nil =>
    intro result r _ h
    simp [mergeDepList] at h
    subst h
    simp [keysOf]
  | cons p rest ih =>
    obtain ⟨k, v⟩ := p
    intro result r hnd h
    obtain ⟨hk1, hk2⟩ := nodupKeysB_cons hnd
    simp only [mergeDepList] at h
    cases hl : lookupA result k with
    | some bv =>
      simp only [hl] at h
      cases hm : mergeDependencyVersionsJ bv v with
      | error e => simp only [hm] at h; simp at h
      | ok m =>
        simp only [hm] at h
        have hr := ih (upsertA result k m) r hk2 h
        rw [keysOf_upsertA_of_lookup m hl] at hr
        have hmem : k ∈ keysOf result := List.mem_map_of_mem Prod.fst (lookupA_mem hl)
        have hmem2 : k ∈ List.map Prod.fst result := hmem
        rw [hr]
        simp [keysOf, List.filter_cons, hmem2]
    | none =>
      simp only [hl] at h
      have hr := ih (result ++ [(k, v)]) r hk2 h
      rw [keysOf_append1] at hr
      have hkn : ¬ k ∈ keysOf result := by
        intro hm
        obtain ⟨⟨k2, w⟩, hw, he⟩ := List.mem_map.mp hm
        have he2 : k2 = k := he
        subst he2
        exact (mem_lookupA_ne_none result k2 w hw) hl
      have hfilter :
          (keysOf rest).filter (fun x => !((keysOf result ++ [k]).contains x)) =
          (keysOf rest).filter (fun x => !((keysOf result).contains x)) := by
        apply List.filter_congr
        intro x hx
        have hxk : x ≠ k := by
          intro he
          subst he
          exact contains_false_not_mem _ _ hk1 hx
        simp [hxk]
      have hkn2 : ¬ k ∈ List.map Prod.fst result := hkn
      rw [hfilter] at hr
      rw [hr]
      simp [keysOf, List.filter_cons, hkn2]

lemma mergeDepList_lookup : ∀ (u result r : List (String × JVal)),
    nodupKeysB u = true → mergeDepList result u = .ok r → ∀ k2,
    (lookupA u k2 = none → lookupA r k2 = lookupA result k2) ∧
    (∀ uv, lookupA u k2 = some uv →
      (∀ bv, lookupA result k2 = some bv →
        ∃ m, mergeDependencyVersionsJ bv uv = .ok m ∧ lookupA r k2 = some m) ∧
      (lookupA result k2 = none → lookupA r k2 = some uv)) := by
  intro u
  induction u with
  | nil =>
    intro result r _ h k2
    simp [mergeDepList] at h
    subst h
    constructor
    · intro _; rfl
    · intro uv huv; simp [lookupA] at huv
  | cons p rest ih =>
    obtain ⟨k, v⟩ := p
    intro result r hnd h k2
    obtain ⟨hk1, hk2⟩ := nodupKeysB_cons hnd
    simp only [mergeDepList] at h
    by_cases hkk : k = k2
    · subst hkk
      have hrest : lookupA rest k = none := by
        cases hc : lookupA rest k with
        | none => rfl
        | some w =>
          exact absurd (List.mem_map_of_mem Prod.fst (lookupA_mem hc))
            (contains_false_not_mem _ _ hk1)
      cases hl : lookupA result k with
      | some bv =>
        simp only [hl] at h
        cases hm : mergeDependencyVersionsJ bv v with
        | error e => simp only [hm] at h; simp at h
        | ok m =>
          simp only [hm] at h
          have hfin := (ih (upsertA result k m) r hk2 h k).1 hrest
          rw [lookupA_upsertA_self] at hfin
          constructor
          · intro hnone; simp [lookupA] at hnone
          · intro uv huv
            have huv2 : uv = v := by
              simp [lookupA] at huv
              exact huv.symm
            subst huv2
            constructor
            · intro bv2 hbv2
              injection hbv2 with he
              subst he
              exact ⟨m, hm, hfin⟩
            · intro hnone
              simp at hnone
      | none =>
        simp only [hl] at h
        have hfin := (ih (result ++ [(k, v)]) r hk2 h k).1 hrest
        rw [lookupA_append_self result k v hl] at hfin
        constructor
        · intro hnone; simp [lookupA] at hnone
        · intro uv huv
          have huv2 : uv = v := by
            simp [lookupA] at huv
            exact huv.symm
          subst huv2
          constructor
          · intro bv2 hbv2
            simp at hbv2
          · intro _
            exact hfin
    · have hu2 : lookupA ((k, v) :: rest) k2 = lookupA rest k2 := by
        simp [lookupA, hkk]
      cases hl : lookupA result k with
      | some bv =>
        simp only [hl] at h
        cases hm : mergeDependencyVersionsJ bv v with
        | error e => simp only [hm] at h; simp at h
        | ok m =>
          simp only [hm] at h
          have hih := ih (upsertA result k m) r hk2 h k2
          rw [lookupA_upsertA_ne result k m k2 (fun he => hkk he.symm)] at hih
          rw [hu2]
          exact hih
      | none =>
        simp only [hl] at h
        have hih := ih (result ++ [(k, v)]) r hk2 h k2
        rw [lookupA_append_ne result k v k2 (fun he => hkk he.symm)] at hih
        rw [hu2]
        exact hih

lemma isStrJ_some (v : JVal) (h : isStrJ v = true) : ∃ s, v = .str s := by
  cases v <;> simp [isStrJ] at h
  exact ⟨_, rfl⟩

lemma mergeDependencyVersionsJ_str (a b : String) :
    ∃ c, mergeDependencyVersionsJ (.str a) (.str b) = .ok (.str c) := by
  unfold mergeDependencyVersionsJ
  by_cases h1 : (isWildJ (.str a) && !isWildJ (.str b)) = true
  · exact ⟨b, by simp [h1]⟩
  · by_cases h2 : (isWildJ (.str b) && !isWildJ (.str a)) = true
    · exact ⟨a, by simp [h1, h2]⟩
    · by_cases h3 : hasProtocolAny a = true
      · exact ⟨b, by simp [h1, h2, protoInJ, h3]⟩
      · by_cases h4 : hasProtocolAny b = true
        · exact ⟨b, by simp [h1, h2, protoInJ, h3, h4]⟩
        · exact ⟨mergeDependencyVersions a b, by simp [h1, h2, protoInJ, h3, h4]⟩

lemma mergeDepList_ok : ∀ (u result : List (String × JVal)),
    (∀ p ∈ result, isStrJ p.2 = true) → (∀ p ∈ u, isStrJ p.2 = true) →
    ∃ r, mergeDepList result u = .ok r ∧ ∀ p ∈ r, isStrJ p.2 = true := by
  intro u
  induction u with
  | nil =>
    intro result hres _
    exact ⟨result, rfl, hres⟩
  | cons p rest ih =>
    obtain ⟨k, v⟩ := p
    intro result hres hu
    have hv : isStrJ v = true := hu (k, v) (List.mem_cons_self _ _)
    have hurest : ∀ p ∈ rest, isStrJ p.2 = true :=
      fun q hq => hu q (List.mem_cons_of_mem _ hq)
    obtain ⟨sb, rfl⟩ := isStrJ_some v hv
    cases hl : lookupA result k with
    | some bv =>
      have hbv : isStrJ bv = true := hres (k, bv) (lookupA_mem hl)
      obtain ⟨sa, rfl⟩ := isStrJ_some bv hbv
      obtain ⟨c, hc⟩ := mergeDependencyVersionsJ_str sa sb
      have hres2 : ∀ p ∈ upsertA result k (.str c), isStrJ p.2 = true :=
        upsertA_values (fun x => isStrJ x = true) result k (.str c) hres rfl
      obtain ⟨r, hr1, hr2⟩ := ih (upsertA result k (.str c)) hres2 hurest
      refine ⟨r, ?_, hr2⟩
      simp only [mergeDepList, hl, hc, hr1]
    | none =>
      have hres2 : ∀ p ∈ result ++ [(k, JVal.str sb)], isStrJ p.2 = true := by
        intro q hq
        rcases List.mem_append.mp hq with hq | hq
        · exact hres q hq
        · simp at hq
          subst hq
          rfl
      obtain ⟨r, hr1, hr2⟩ := ih (result ++ [(k, JVal.str sb)]) hres2 hurest
      refine ⟨r, ?_, hr2⟩
      simp only [mergeDepList, hl, hr1]

lemma mergeDependenciesJ_strmap (b u : List (String × JVal))
    (hb : ∀ p ∈ b, isStrJ p.2 = true) (hu : ∀ p ∈ u, isStrJ p.2 = true) :
    ∃ r, mergeDependenciesJ (.obj b) (.obj u) = .ok (.obj r) ∧
      ∀ p ∈ r, isStrJ p.2 = true := by
  obtain ⟨r, hr, hstr⟩ := mergeDepList_ok u b hb hu
  exact ⟨r, by simp [mergeDependenciesJ, hr], hstr⟩

/-! ## Claim C7 -/

/-- C7: `merge_dependencies` returns the union of the two mappings —
base keys first in original order, then update-only keys in update
order; a key in both maps to the merged version of its two values, a
key in one side keeps that side's value; and on string-valued mappings
the merge always succeeds (no package is lost). -/
theorem merge_dependencies_union :
    (∀ b u r, nodupKeysB u = true →
      mergeDependenciesJ (.obj b) (.obj u) = .ok (.obj r) →
      keysOf r = keysOf b ++ (keysOf u).filter (fun k => !((keysOf b).contains k)) ∧
      (∀ k bv uv, lookupA b k = some bv → lookupA u k = some uv →
        ∃ m, mergeDependencyVersionsJ bv uv = .ok m ∧ lookupA r k = some m) ∧
      (∀ k bv, lookupA b k = some bv → lookupA u k = none → lookupA r k = some bv) ∧
      (∀ k uv, lookupA u k = some uv → lookupA b k = none → lookupA r k = some uv)) ∧
    (∀ b u, (∀ p ∈ b, isStrJ p.2 = true) → (∀ p ∈ u, isStrJ p.2 = true) →
      ∃ r, mergeDependenciesJ (.obj b) (.obj u) = .ok (.obj r)) := by
  constructor
  · intro b u r hnd h
    have h2 : mergeDepList b u = .ok r := by
      cases hml : mergeDepList b u with
      | ok r2 =>
        simp [mergeDependenciesJ, hml] at h
        subst h
        rfl
      | error e => simp [mergeDependenciesJ, hml] at h
    refine ⟨mergeDepList_keys u b r hnd h2, ?_, ?_, ?_⟩
    · intro k bv uv hbv huv
      exact ((mergeDepList_lookup u b r hnd h2 k).2 uv huv).1 bv hbv
    · intro k bv hbv huv
      have hh := (mergeDepList_lookup u b r hnd h2 k).1 huv
      rw [hh]
      exact hbv
    · intro k uv huv hbv
      exact ((mergeDepList_lookup u b r hnd h2 k).2 uv huv).2 hbv
  · intro b u hb hu
    obtain ⟨r, hr, _⟩ := mergeDependenciesJ_strmap b u hb hu
    exact ⟨r, hr⟩

/-- Witness for C7 on the spec's example: `{a, b}` merged with `{b, c}`
yields keys `[a, b, c]` in base-then-update order. -/
theorem merge_dependencies_union_witness :
    nodupKeysB [("b", JVal.str "^1.1.0"), ("c", JVal.str "^1.0.0")] = true ∧
    keysOf [("a", JVal.str "^1.0.0"), ("b", JVal.str "^1.1.0"), ("c", JVal.str "^1.0.0")] =
      keysOf [("a", JVal.str "^1.0.0"), ("b", JVal.str "^1.0.0")] ++
        (keysOf [("b", JVal.str "^1.1.0"), ("c", JVal.str "^1.0.0")]).filter
          (fun k => !((keysOf [("a", JVal.str "^1.0.0"), ("b", JVal.str "^1.0.0")]).contains k)) ∧
    keysOf [("a", JVal.str "^1.0.0"), ("b", JVal.str "^1.1.0"), ("c", JVal.str "^1.0.0")] =
      ["a", "b", "c"] :=
  ⟨rfl,
    (merge_dependencies_union.1
      [("a", JVal.str "^1.0.0"), ("b", JVal.str "^1.0.0")]
      [("b", JVal.str "^1.1.0"), ("c", JVal.str "^1.0.0")]
      [("a", JVal.str "^1.0.0"), ("b", JVal.str "^1.1.0"), ("c", JVal.str "^1.0.0")]
      rfl rfl).1,
    rfl⟩

/-! ## Sorting lemmas (claim C5) -/

lemma insLe_perm (x : JVal) : ∀ l, (insLe x l).Perm (x :: l)
  | [] => List.Perm.refl _
  | y :: ys => by
    by_cases h : pyLeB x y = true
    · simp [insLe, h]
    · have he : insLe x (y :: ys) = y :: insLe x ys := by simp [insLe, h]
      rw [he]
      exact ((insLe_perm x ys).cons y).trans (List.Perm.swap x y ys)

lemma sortLe_perm : ∀ l, (sortLe l).Perm l
  | [] => List.Perm.refl _
  | x :: xs => by
    have he : sortLe (x :: xs) = insLe x (sortLe xs) := rfl
    rw [he]
    exact (insLe_perm x (sortLe xs)).trans ((sortLe_perm xs).cons x)

lemma insLe_cases (x : JVal) : ∀ l, insLe x l = x :: l ∨
    ∃ y ys, l = y :: ys ∧ pyLeB x y = false ∧ insLe x l = y :: insLe x ys
  | [] => Or.inl rfl
  | y :: ys => by
    by_cases h : pyLeB x y = true
    · left
      simp [insLe, h]
    · right
      refine ⟨y, ys, rfl, by simpa using h, ?_⟩
      simp [insLe, h]

lemma insLe_sorted (x : JVal) : ∀ l,
    List.Chain' (fun a b => pyLeB a b = true) l →
    (∀ y ∈ l, pyLeB x y = true ∨ pyLeB y x = true) →
    List.Chain' (fun a b => pyLeB a b = true) (insLe x l)
  | [], _, _ => by simp [insLe]
  | y :: ys, hch, htot => by
    by_cases h : pyLeB x y = true
    · have he : insLe x (y :: ys) = x :: y :: ys := by simp [insLe, h]
      rw [he]
      exact List.chain'_cons.mpr ⟨h, hch⟩
    · have he : insLe x (y :: ys) = y :: insLe x ys := by simp [insLe, h]
      rw [he]
      have hyx : pyLeB y x = true :=
        (htot y (List.mem_cons_self y ys)).resolve_left h
      have hrec := insLe_sorted x ys hch.tail
        (fun z hz => htot z (List.mem_cons_of_mem _ hz))
      apply List.chain'_cons'.mpr
      refine ⟨?_, hrec⟩
      intro z hz
      rcases insLe_cases x ys with hc | ⟨y2, ys2, hys, _, hc⟩
      · rw [hc] at hz
        simp at hz
        subst hz
        exact hyx
      · rw [hc] at hz
        simp at hz
        subst hz
        rw [hys] at hch
        exact (List.chain'_cons.mp hch).1

lemma sortLe_sorted : ∀ l,
    (∀ x ∈ l, ∀ y ∈ l, pyLeB x y = true ∨ pyLeB y x = true) →
    List.Chain' (fun a b => pyLeB a b = true) (sortLe l)
  | [], _ => by simp [sortLe]
  | x :: xs, htot => by
    have he : sortLe (x :: xs) = insLe x (sortLe xs) := rfl
    rw [he]
    apply insLe_sorted
    · exact sortLe_sorted xs
        (fun a ha b hb => htot a (List.mem_cons_of_mem _ ha) b (List.mem_cons_of_mem _ hb))
    · intro y hy
      have hy2 : y ∈ xs := ((sortLe_perm xs).mem_iff).mp hy
      exact htot x (List.mem_cons_self _ _) y (List.mem_cons_of_mem _ hy2)

lemma pyDedupAux_sublist : ∀ (seen l : List JVal), (pyDedupAux seen l).Sublist l
  | _, [] => List.nil_sublist _
  | seen, x :: xs => by
    unfold pyDedupAux
    by_cases h : pyMemB x seen = true
    · simp only [h, if_true]
      exact (pyDedupAux_sublist seen xs).cons x
    · simp only [h, if_false]
      exact (pyDedupAux_sublist (x :: seen) xs).cons₂ x

lemma pyDedup_sublist (l : List JVal) : (pyDedup l).Sublist l :=
  pyDedupAux_sublist [] l

lemma allCompB_pairwise : ∀ l, allCompB l = true ↔
    l.Pairwise (fun a b => pyCompB a b = true)
  | [] => by simp [allCompB]
  | x :: xs => by
    simp [allCompB, allCompB_pairwise xs, List.pairwise_cons]

/-! ## Claim C5 -/

/-- Counterexample to C5: for arrays of nested containers the claim
predicts stable concatenation (`[[2],[1]] ++ [[3]]` unchanged), but the
code only skips the dedup (`set` raises inside `suppress`) and still
sorts, yielding `[[1],[2],[3]]`. -/
theorem list_merge_fallback_counterexample :
    mergeKeyVal .merge "keywords" (.arr [.arr [.int 2], .arr [.int 1]])
      (.arr [.arr [.int 3]]) =
      .ok (.arr [.arr [.int 1], .arr [.int 2], .arr [.int 3]]) ∧
    (Except.ok (JVal.arr [JVal.arr [JVal.int 1], JVal.arr [JVal.int 2],
        JVal.arr [JVal.int 3]]) : Except PyErr JVal) ≠
      .ok (.arr [.arr [.int 2], .arr [.int 1], .arr [.int 3]]) :=
  ⟨rfl, by simp⟩

/-- C5 (amended): under strategy `merge`, a non-overrides,
non-dependency array key concatenates base then update; when every pair
of elements supports Python `<` the result is the ascending stable sort
of the concatenation, deduplicated by `==` exactly when every element
is hashable (dedup is skipped otherwise, but sorting still happens; on
elements that do not support `<` the operation raises instead of
falling back). In particular `[3,1,2]` merged with `[2,4]` gives
`[1,2,3,4]`. -/
theorem list_merge_dedup_sort :
    (∀ k ba ua, isDepKey k = false → k ≠ "overrides" →
      allCompB (ba ++ ua) = true →
      (∀ x ∈ ba ++ ua, ∀ y ∈ ba ++ ua, pyLeB x y = true ∨ pyLeB y x = true) →
      ∃ r, mergeKeyVal .merge k (.arr ba) (.arr ua) = .ok (.arr r) ∧
        List.Chain' (fun a b => pyLeB a b = true) r ∧
        r.Perm (if (ba ++ ua).all pyHashB then pyDedup (ba ++ ua) else ba ++ ua)) ∧
    mergeKeyVal .merge "keywords" (.arr [.int 3, .int 1, .int 2])
      (.arr [.int 2, .int 4]) = .ok (.arr [.int 1, .int 2, .int 3, .int 4]) := by
  constructor
  · intro k ba ua hdep hov hcomp htot
    have step : mergeKeyVal .merge k (.arr ba) (.arr ua) =
        match listMergeGeneric (ba ++ ua) with
        | .ok r => .ok (.arr r)
        | .error e => .error e := by
      unfold mergeKeyVal
      simp [hdep, hov]
    have hsub : (if (ba ++ ua).all pyHashB then pyDedup (ba ++ ua)
        else ba ++ ua).Sublist (ba ++ ua) := by
      split
      · exact pyDedup_sublist (ba ++ ua)
      · exact List.Sublist.refl _
    have hcomp1 : allCompB (if (ba ++ ua).all pyHashB then pyDedup (ba ++ ua)
        else ba ++ ua) = true :=
      (allCompB_pairwise _).mpr (((allCompB_pairwise _).mp hcomp).sublist hsub)
    have hgen : listMergeGeneric (ba ++ ua) =
        .ok (sortLe (if (ba ++ ua).all pyHashB then pyDedup (ba ++ ua)
          else ba ++ ua)) := by
      unfold listMergeGeneric sortE
      rw [if_pos hcomp1]
    refine ⟨sortLe (if (ba ++ ua).all pyHashB then pyDedup (ba ++ ua)
      else ba ++ ua), ?_, ?_, ?_⟩
    · rw [step, hgen]
    · exact sortLe_sorted _
        (fun x hx y hy => htot x (hsub.subset hx) y (hsub.subset hy))
    · exact sortLe_perm _
  · rfl

/-- Witness for C5 (amended) on the spec's example `[3,1,2] ++ [2,4]`:
all elements are hashable, mutually comparable integers. -/
theorem list_merge_dedup_sort_witness :
    isDepKey "keywords" = false ∧
    allCompB ([JVal.int 3, JVal.int 1, JVal.int 2] ++ [JVal.int 2, JVal.int 4]) = true ∧
    ∃ r, mergeKeyVal .merge "keywords" (.arr [.int 3, .int 1, .int 2])
        (.arr [.int 2, .int 4]) = .ok (.arr r) ∧
      List.Chain' (fun a b => pyLeB a b = true) r ∧
      r.Perm (if (([JVal.int 3, JVal.int 1, JVal.int 2] ++
          [JVal.int 2, JVal.int 4]).all pyHashB)
        then pyDedup ([JVal.int 3, JVal.int 1, JVal.int 2] ++ [JVal.int 2, JVal.int 4])
        else [JVal.int 3, JVal.int 1, JVal.int 2] ++ [JVal.int 2, JVal.int 4]) :=
  ⟨rfl, rfl,
    list_merge_dedup_sort.1 "keywords" [.int 3, .int 1, .int 2] [.int 2, .int 4]
      rfl (by decide) rfl (by decide)⟩

/-! ## Overrides-table lemmas (claim C8) -/

/-- The dedup identity of an overrides element, when defined: the
colon-joined sorted `files` of an object carrying that field. -/
def identityOf (x : JVal) : Option String :=
  match filesOf x with
  | some f => (dedupKeyOf f).toOption
  | none => none

lemma exceptIsOk_some {α : Type} (e : Except PyErr α) (h : exceptIsOk e = true) :
    ∃ a, e = .ok a := by
  cases e with
  | ok a => exact ⟨a, rfl⟩
  | error e2 => simp [exceptIsOk] at h

lemma upsertA_mem : ∀ (l : List (String × JVal)) (k : String) (v : JVal),
    ∀ p ∈ upsertA l k v, p ∈ l ∨ p = (k, v) := by
  intro l
  induction l with
  | nil =>
    intro k v p hp
    simp [upsertA] at hp
    exact Or.inr hp
  | cons q rest ih =>
    intro k v p hp
    obtain ⟨k2, v2⟩ := q
    by_cases hk : k2 = k
    · subst hk
      simp only [upsertA, if_pos rfl] at hp
      rcases List.mem_cons.mp hp with hp | hp
      · exact Or.inr (by rw [hp])
      · exact Or.inl (List.mem_cons_of_mem _ hp)
    · simp only [upsertA, if_neg hk] at hp
      rcases List.mem_cons.mp hp with hp | hp
      · exact Or.inl (by rw [hp]; exact List.mem_cons_self _ _)
      · rcases ih k v p hp with h2 | h2
        · exact Or.inl (List.mem_cons_of_mem _ h2)
        · exact Or.inr h2

lemma lookupA_append_of_some : ∀ (l : List (String × JVal)) (e : String × JVal)
    (k : String) (w : JVal), lookupA l k = some w → lookupA (l ++ [e]) k = some w := by
  intro l
  induction l with
  | nil => intro e k w h; simp [lookupA] at h
  | cons q rest ih =>
    intro e k w h
    obtain ⟨k2, v2⟩ := q
    by_cases hk : k2 = k
    · simp [lookupA, hk] at h ⊢
      exact h
    · simp [lookupA, hk] at h ⊢
      exact ih e k w h

lemma nodupKeysB_iff : ∀ l : List (String × JVal),
    nodupKeysB l = true ↔ (keysOf l).Nodup
  | [] => by simp [nodupKeysB, keysOf]
  | (k, v) :: rest => by
    rw [show keysOf ((k, v) :: rest) = k :: keysOf rest from rfl, List.nodup_cons]
    rw [show nodupKeysB ((k, v) :: rest) =
      (!((rest.map Prod.fst).contains k) && nodupKeysB rest) from rfl]
    rw [Bool.and_eq_true, nodupKeysB_iff rest]
    constructor
    · rintro ⟨h1, h2⟩
      rw [Bool.not_eq_true'] at h1
      exact ⟨contains_false_not_mem _ _ h1, h2⟩
    · rintro ⟨h1, h2⟩
      refine ⟨?_, h2⟩
      cases hc : (rest.map Prod.fst).contains k
      · rfl
      · exact absurd (contains_true_mem _ _ hc) h1

lemma charsLtB_asymm : ∀ l m, charsLtB l m = true → charsLtB m l = false
  | [], [], h => by simp [charsLtB] at h
  | [], _ :: _, _ => by simp [charsLtB]
  | _ :: _, [], h => by simp [charsLtB] at h
  | c :: cs, d :: ds, h => by
    by_cases hc : c = d
    · subst hc
      simp only [charsLtB, if_pos rfl] at h ⊢
      exact charsLtB_asymm cs ds h
    · simp only [charsLtB, if_neg hc, if_neg (Ne.symm hc)] at h ⊢
      simp at h ⊢
      omega

/-- Non-descending key order used by the table sort. -/
def keyLeB (p q : String × JVal) : Bool := !charsLtB q.1.data p.1.data

lemma keyLeB_total (p q : String × JVal) : keyLeB p q = true ∨ keyLeB q p = true := by
  unfold keyLeB
  cases hc : charsLtB q.1.data p.1.data
  · left; rfl
  · right
    simp [charsLtB_asymm _ _ hc]

lemma insPair_perm (x : String × JVal) : ∀ l, (insPair x l).Perm (x :: l)
  | [] => List.Perm.refl _
  | y :: ys => by
    by_cases h : keyLeB x y = true
    · simp [insPair, keyLeB] at h ⊢
      simp [h]
    · have he : insPair x (y :: ys) = y :: insPair x ys := by
        simp only [keyLeB] at h
        simp [insPair, h]
      rw [he]
      exact ((insPair_perm x ys).cons y).trans (List.Perm.swap x y ys)

lemma sortPairs_perm : ∀ l, (sortPairs l).Perm l
  | [] => List.Perm.refl _
  | x :: xs => by
    have he : sortPairs (x :: xs) = insPair x (sortPairs xs) := rfl
    rw [he]
    exact (insPair_perm x (sortPairs xs)).trans ((sortPairs_perm xs).cons x)

lemma insPair_cases (x : String × JVal) : ∀ l, insPair x l = x :: l ∨
    ∃ y ys, l = y :: ys ∧ insPair x l = y :: insPair x ys
  | [] => Or.inl rfl
  | y :: ys => by
    by_cases h : keyLeB x y = true
    · left
      simp only [keyLeB] at h
      simp [insPair, h]
    · right
      refine ⟨y, ys, rfl, ?_⟩
      simp only [keyLeB] at h
      simp [insPair, h]

lemma insPair_sorted (x : String × JVal) : ∀ l,
    List.Chain' (fun p q => keyLeB p q = true) l →
    List.Chain' (fun p q => keyLeB p q = true) (insPair x l)
  | [], _ => by simp [insPair]
  | y :: ys, hch => by
    by_cases h : keyLeB x y = true
    · have he : insPair x (y :: ys) = x :: y :: ys := by
        simp only [keyLeB] at h
        simp [insPair, h]
      rw [he]
      exact List.chain'_cons.mpr ⟨h, hch⟩
    · have he : insPair x (y :: ys) = y :: insPair x ys := by
        simp only [keyLeB] at h
        simp [insPair, h]
      rw [he]
      have hyx : keyLeB y x = true := (keyLeB_total x y).resolve_left h
      have hrec := insPair_sorted x ys hch.tail
      apply List.chain'_cons'.mpr
      refine ⟨?_, hrec⟩
      intro z hz
      rcases insPair_cases x ys with hc | ⟨y2, ys2, hys, hc⟩
      · rw [hc] at hz
        simp at hz
        subst hz
        exact hyx
      · rw [hc] at hz
        simp at hz
        subst hz
        rw [hys] at hch
        exact (List.chain'_cons.mp hch).1

lemma sortPairs_sorted : ∀ l,
    List.Chain' (fun p q => keyLeB p q = true) (sortPairs l)
  | [] => by simp [sortPairs]
  | x :: xs => by
    have he : sortPairs (x :: xs) = insPair x (sortPairs xs) := rfl
    rw [he]
    exact insPair_sorted x (sortPairs xs) (sortPairs_sorted xs)

lemma keysOf_upsertA_none : ∀ (l : List (String × JVal)) (k : String) (v : JVal),
    lookupA l k = none → keysOf (upsertA l k v) = keysOf l ++ [k] := by
  intro l
  induction l with
  | nil => intro k v _; simp [upsertA, keysOf]
  | cons p rest ih =>
    intro k v h
    obtain ⟨k2, v2⟩ := p
    by_cases hk : k2 = k
    · simp [lookupA, hk] at h
    · simp [lookupA, hk] at h
      simp [upsertA, hk, keysOf] at ih ⊢
      exact ih k v h

lemma not_mem_keys_of_lookup_none {l : List (String × JVal)} {k : String}
    (h : lookupA l k = none) : k ∉ keysOf l := by
  intro hm
  obtain ⟨⟨k2, w⟩, hw, he⟩ := List.mem_map.mp hm
  have he2 : k2 = k := he
  subst he2
  exact (mem_lookupA_ne_none l k2 w hw) h

lemma nodupKeysB_upsertA (l : List (String × JVal)) (k : String) (v : JVal)
    (h : nodupKeysB l = true) : nodupKeysB (upsertA l k v) = true := by
  rw [nodupKeysB_iff] at h ⊢
  cases hl : lookupA l k with
  | some w =>
    rw [keysOf_upsertA_of_lookup v hl]
    exact h
  | none =>
    rw [keysOf_upsertA_none l k v hl]
    exact (List.perm_append_singleton k (keysOf l)).nodup_iff.mpr
      (List.nodup_cons.mpr ⟨not_mem_keys_of_lookup_none hl, h⟩)

lemma nodupKeysB_append_new (l : List (String × JVal)) (k : String) (v : JVal)
    (hl : lookupA l k = none) (h : nodupKeysB l = true) :
    nodupKeysB (l ++ [(k, v)]) = true := by
  rw [nodupKeysB_iff] at h ⊢
  rw [keysOf_append1]
  exact (List.perm_append_singleton k (keysOf l)).nodup_iff.mpr
    (List.nodup_cons.mpr ⟨not_mem_keys_of_lookup_none hl, h⟩)

lemma lookupA_upsertA_isSome (l : List (String × JVal)) (k : String) (v : JVal)
    (k2 : String) (h : (lookupA l k2).isSome = true) :
    (lookupA (upsertA l k v) k2).isSome = true := by
  by_cases hk : k2 = k
  · subst hk
    rw [lookupA_upsertA_self]
    rfl
  · rw [lookupA_upsertA_ne l k v k2 hk]
    exact h

lemma ovAddBase_ok : ∀ (items : List JVal) (dd : List (String × JVal)),
    (∀ x ∈ items, filesEntryOkB x = true) →
    ∃ dd2, ovAddBase dd items = .ok dd2 ∧
      (∀ p ∈ dd2, p ∈ dd ∨ (p.2 ∈ items ∧ identityOf p.2 = some p.1)) ∧
      (∀ k2, (lookupA dd k2).isSome = true → (lookupA dd2 k2).isSome = true) ∧
      (∀ x ∈ items, ∀ i, identityOf x = some i → (lookupA dd2 i).isSome = true) ∧
      (nodupKeysB dd = true → nodupKeysB dd2 = true) := by
  intro items
  induction items with
  | nil =>
    intro dd _
    refine ⟨dd, rfl, ?_, ?_, ?_, ?_⟩
    · intro p hp; exact Or.inl hp
    · intro k2 h; exact h
    · intro x hx; simp at hx
    · intro h; exact h
  | cons item rest ih =>
    intro dd hok
    have hokr : ∀ x ∈ rest, filesEntryOkB x = true :=
      fun x hx => hok x (List.mem_cons_of_mem _ hx)
    cases hfiles : filesOf item with
    | none =>
      obtain ⟨dd2, h1, h2, h3, h4, h5⟩ := ih dd hokr
      refine ⟨dd2, ?_, ?_, h3, ?_, h5⟩
      · simp only [ovAddBase, hfiles]
        exact h1
      · intro p hp
        rcases h2 p hp with hp2 | ⟨hp2, hp3⟩
        · exact Or.inl hp2
        · exact Or.inr ⟨List.mem_cons_of_mem _ hp2, hp3⟩
      · intro x hx i hi
        rcases List.mem_cons.mp hx with hx2 | hx2
        · subst hx2
          simp [identityOf, hfiles] at hi
        · exact h4 x hx2 i hi
    | some fv =>
      have hfe : filesEntryOkB item = true := hok item (List.mem_cons_self _ _)
      simp only [filesEntryOkB, hfiles] at hfe
      obtain ⟨key, hkey⟩ := exceptIsOk_some _ hfe
      have hid : identityOf item = some key := by
        simp [identityOf, hfiles, hkey, Except.toOption]
      obtain ⟨dd2, h1, h2, h3, h4, h5⟩ := ih (upsertA dd key item) hokr
      refine ⟨dd2, ?_, ?_, ?_, ?_, ?_⟩
      · simp only [ovAddBase, hfiles, hkey]
        exact h1
      · intro p hp
        rcases h2 p hp with hp2 | ⟨hp2, hp3⟩
        · rcases upsertA_mem dd key item p hp2 with hp3 | hp3
          · exact Or.inl hp3
          · subst hp3
            exact Or.inr ⟨List.mem_cons_self _ _, hid⟩
        · exact Or.inr ⟨List.mem_cons_of_mem _ hp2, hp3⟩
      · intro k2 hk2
        exact h3 k2 (lookupA_upsertA_isSome dd key item k2 hk2)
      · intro x hx i hi
        rcases List.mem_cons.mp hx with hx2 | hx2
        · subst hx2
          rw [hid] at hi
          injection hi with hi2
          subst hi2
          apply h3
          rw [lookupA_upsertA_self]
          rfl
        · exact h4 x hx2 i hi
      · intro hnd
        exact h5 (nodupKeysB_upsertA dd key item hnd)

lemma ovAddUpd_ok : ∀ (items : List JVal) (dd : List (String × JVal)),
    (∀ x ∈ items, filesEntryOkB x = true) →
    ∃ dd2, ovAddUpd dd items = .ok dd2 ∧
      (∀ p ∈ dd2, p ∈ dd ∨
        (p.2 ∈ items ∧ identityOf p.2 = some p.1 ∧ lookupA dd p.1 = none)) ∧
      (∀ k2, (lookupA dd k2).isSome = true → lookupA dd2 k2 = lookupA dd k2) ∧
      (∀ x ∈ items, ∀ i, identityOf x = some i → (lookupA dd2 i).isSome = true) ∧
      (nodupKeysB dd = true → nodupKeysB dd2 = true) := by
  intro items
  induction items with
  | nil =>
    intro dd _
    refine ⟨dd, rfl, ?_, ?_, ?_, ?_⟩
    · intro p hp; exact Or.inl hp
    · intro k2 _; rfl
    · intro x hx; simp at hx
    · intro h; exact h
  | cons item rest ih =>
    intro dd hok
    have hokr : ∀ x ∈ rest, filesEntryOkB x = true :=
      fun x hx => hok x (List.mem_cons_of_mem _ hx)
    cases hfiles : filesOf item with
    | none =>
      obtain ⟨dd2, h1, h2, h3, h4, h5⟩ := ih dd hokr
      refine ⟨dd2, ?_, ?_, h3, ?_, h5⟩
      · simp only [ovAddUpd, hfiles]
        exact h1
      · intro p hp
        rcases h2 p hp with hp2 | ⟨hp2, hp3⟩
        · exact Or.inl hp2
        · exact Or.inr ⟨List.mem_cons_of_mem _ hp2, hp3⟩
      · intro x hx i hi
        rcases List.mem_cons.mp hx with hx2 | hx2
        · subst hx2
          simp [identityOf, hfiles] at hi
        · exact h4 x hx2 i hi
    | some fv =>
      have hfe : filesEntryOkB item = true := hok item (List.mem_cons_self _ _)
      simp only [filesEntryOkB, hfiles] at hfe
      obtain ⟨key, hkey⟩ := exceptIsOk_some _ hfe
      have hid : identityOf item = some key := by
        simp [identityOf, hfiles, hkey, Except.toOption]
      cases hpres : (lookupA dd key).isSome with
      | true =>
        obtain ⟨dd2, h1, h2, h3, h4, h5⟩ := ih dd hokr
        refine ⟨dd2, ?_, ?_, h3, ?_, h5⟩
        · simp only [ovAddUpd, hfiles, hkey, hpres, if_true]
          exact h1
        · intro p hp
          rcases h2 p hp with hp2 | ⟨hp2, hp3⟩
          · exact Or.inl hp2
          · exact Or.inr ⟨List.mem_cons_of_mem _ hp2, hp3⟩
        · intro x hx i hi
          rcases List.mem_cons.mp hx with hx2 | hx2
          · subst hx2
            rw [hid] at hi
            injection hi with hi2
            subst hi2
            rw [h3 key hpres]
            exact hpres
          · exact h4 x hx2 i hi
      | false =>
        have hnone : lookupA dd key = none := by
          cases hc : lookupA dd key with
          | none => rfl
          | some w => rw [hc] at hpres; simp at hpres
        obtain ⟨dd2, h1, h2, h3, h4, h5⟩ := ih (dd ++ [(key, item)]) hokr
        refine ⟨dd2, ?_, ?_, ?_, ?_, ?_⟩
        · simp only [ovAddUpd, hfiles, hkey, hpres, if_false]
          exact h1
        · intro p hp
          rcases h2 p hp with hp2 | ⟨hp2, hp3, hp4⟩
          · rcases List.mem_append.mp hp2 with hp3 | hp3
            · exact Or.inl hp3
            · simp at hp3
              subst hp3
              exact Or.inr ⟨List.mem_cons_self _ _, hid, hnone⟩
          · right
            refine ⟨List.mem_cons_of_mem _ hp2, hp3, ?_⟩
            cases hc : lookupA dd p.1 with
            | none => rfl
            | some w =>
              rw [lookupA_append_of_some dd (key, item) p.1 w hc] at hp4
              simp at hp4
        · intro k2 hk2
          have hne : k2 ≠ key := by
            intro he
            subst he
            rw [hnone] at hk2
            simp at hk2
          have ha : lookupA (dd ++ [(key, item)]) k2 = lookupA dd k2 :=
            lookupA_append_ne dd key item k2 hne
          have hk2b : (lookupA (dd ++ [(key, item)]) k2).isSome = true := by
            rw [ha]; exact hk2
          rw [h3 k2 hk2b, ha]
        · intro x hx i hi
          rcases List.mem_cons.mp hx with hx2 | hx2
          · rw [hx2] at hi
            rw [hid] at hi
            injection hi with hi2
            subst hi2
            have hself : lookupA (dd ++ [(key, item)]) key = some item :=
              lookupA_append_self dd key item hnone
            have hsome : (lookupA (dd ++ [(key, item)]) key).isSome = true := by
              rw [hself]; rfl
            rw [h3 key hsome, hself]
            rfl
          · exact h4 x hx2 i hi
        · intro hnd
          exact h5 (nodupKeysB_append_new dd key item hnone hnd)

/-! ## Claim C8 -/

/-- C8: under strategy `merge`, the overrides key merges by identity:
the result is the value column of a table keyed by the sorted
colon-joined `files` strings, in which every entry carries its identity
and comes from one of the inputs, base entries beat update entries at
the same identity, no element carrying a `files` field loses its
identity, elements without `files` are dropped (every kept element has
an identity), keys are unique, and the result is ascending by identity
string. The spec's own example merges to base `a`-entry then update
`b`-entry. -/
theorem overrides_merge_spec :
    (∀ ba ua, (∀ x ∈ ba ++ ua, filesEntryOkB x = true) →
      ∃ tbl : List (String × JVal),
        mergeKeyVal .merge "overrides" (.arr ba) (.arr ua) =
          .ok (.arr (tbl.map Prod.snd)) ∧
        (∀ p ∈ tbl, identityOf p.2 = some p.1 ∧ (p.2 ∈ ba ∨ p.2 ∈ ua)) ∧
        (∀ p ∈ tbl, (∃ y ∈ ba, identityOf y = some p.1) → p.2 ∈ ba) ∧
        (∀ y ∈ ba ++ ua, ∀ i, identityOf y = some i → ∃ p ∈ tbl, p.1 = i) ∧
        (keysOf tbl).Nodup ∧
        List.Chain' (fun p q => keyLeB p q = true) tbl) ∧
    mergeKeyVal .merge "overrides"
      (.arr [.obj [("files", .arr [.str "a"]), ("x", .int 1)]])
      (.arr [.obj [("files", .arr [.str "a"]), ("x", .int 2)],
             .obj [("files", .arr [.str "b"]), ("x", .int 3)]]) =
      .ok (.arr [.obj [("files", .arr [.str "a"]), ("x", .int 1)],
                 .obj [("files", .arr [.str "b"]), ("x", .int 3)]]) := by
  constructor
  · intro ba ua h
    have hba : ∀ x ∈ ba, filesEntryOkB x = true :=
      fun x hx => h x (List.mem_append_left _ hx)
    have hua : ∀ x ∈ ua, filesEntryOkB x = true :=
      fun x hx => h x (List.mem_append_right _ hx)
    obtain ⟨dd2, hb1, hb2, hb3, hb4, hb5⟩ := ovAddBase_ok ba [] hba
    obtain ⟨dd3, hu1, hu2, hu3, hu4, hu5⟩ := ovAddUpd_ok ua dd2 hua
    have hdd2src : ∀ p ∈ dd2, p.2 ∈ ba ∧ identityOf p.2 = some p.1 := by
      intro p hp
      rcases hb2 p hp with h0 | h0
      · simp at h0
      · exact h0
    have hdd3src : ∀ p ∈ dd3, (p.2 ∈ ba ∧ identityOf p.2 = some p.1) ∨
        (p.2 ∈ ua ∧ identityOf p.2 = some p.1 ∧ lookupA dd2 p.1 = none) := by
      intro p hp
      rcases hu2 p hp with h0 | ⟨h0, h1, h2⟩
      · exact Or.inl (hdd2src p h0)
      · exact Or.inr ⟨h0, h1, h2⟩
    have hnd3 : nodupKeysB dd3 = true := hu5 (hb5 rfl)
    have hperm : (sortPairs dd3).Perm dd3 := sortPairs_perm dd3
    refine ⟨sortPairs dd3, ?_, ?_, ?_, ?_, ?_, ?_⟩
    · have hstep : mergeKeyVal .merge "overrides" (.arr ba) (.arr ua) =
          match ovMerge ba ua with
          | .ok r => .ok (.arr r)
          | .error e => .error e := rfl
      rw [hstep]
      simp only [ovMerge, hb1, hu1]
    · intro p hp
      rcases hdd3src p (hperm.mem_iff.mp hp) with ⟨h0, h1⟩ | ⟨h0, h1, _⟩
      · exact ⟨h1, Or.inl h0⟩
      · exact ⟨h1, Or.inr h0⟩
    · intro p hp hy
      obtain ⟨y, hymem, hyid⟩ := hy
      rcases hdd3src p (hperm.mem_iff.mp hp) with ⟨h0, _⟩ | ⟨_, _, h2⟩
      · exact h0
      · have hs := hb4 y hymem p.1 hyid
        rw [h2] at hs
        simp at hs
    · intro y hy i hyid
      rcases List.mem_append.mp hy with hy2 | hy2
      · have h2 := hb4 y hy2 i hyid
        have h3 := hu3 i h2
        have h4 : (lookupA dd3 i).isSome = true := by
          rw [h3]
          exact h2
        obtain ⟨w, hw⟩ := Option.isSome_iff_exists.mp h4
        exact ⟨(i, w), hperm.mem_iff.mpr (lookupA_mem hw), rfl⟩
      · have h2 := hu4 y hy2 i hyid
        obtain ⟨w, hw⟩ := Option.isSome_iff_exists.mp h2
        exact ⟨(i, w), hperm.mem_iff.mpr (lookupA_mem hw), rfl⟩
    · exact ((hperm.map Prod.fst).nodup_iff).mpr ((nodupKeysB_iff dd3).mp hnd3)
    · exact sortPairs_sorted dd3
  · rfl

/-- Witness for C8 on the spec's example (all `files` values are string
arrays, so every identity computation succeeds). -/
theorem overrides_merge_spec_witness :
    (∀ x ∈ ([.obj [("files", .arr [.str "a"]), ("x", .int 1)]] : List JVal) ++
        [.obj [("files", .arr [.str "a"]), ("x", .int 2)],
         .obj [("files", .arr [.str "b"]), ("x", .int 3)]],
      filesEntryOkB x = true) ∧
    ∃ tbl : List (String × JVal),
      mergeKeyVal .merge "overrides"
        (.arr [.obj [("files", .arr [.str "a"]), ("x", .int 1)]])
        (.arr [.obj [("files", .arr [.str "a"]), ("x", .int 2)],
               .obj [("files", .arr [.str "b"]), ("x", .int 3)]]) =
        .ok (.arr (tbl.map Prod.snd)) ∧
      (∀ p ∈ tbl, identityOf p.2 = some p.1 ∧
        (p.2 ∈ ([.obj [("files", .arr [.str "a"]), ("x", .int 1)]] : List JVal) ∨
         p.2 ∈ [.obj [("files", .arr [.str "a"]), ("x", .int 2)],
                .obj [("files", .arr [.str "b"]), ("x", .int 3)]])) ∧
      (∀ p ∈ tbl,
        (∃ y ∈ ([.obj [("files", .arr [.str "a"]), ("x", .int 1)]] : List JVal),
          identityOf y = some p.1) →
        p.2 ∈ ([.obj [("files", .arr [.str "a"]), ("x", .int 1)]] : List JVal)) ∧
      (∀ y ∈ ([.obj [("files", .arr [.str "a"]), ("x", .int 1)]] : List JVal) ++
          [.obj [("files", .arr [.str "a"]), ("x", .int 2)],
           .obj [("files", .arr [.str "b"]), ("x", .int 3)]],
        ∀ i, identityOf y = some i → ∃ p ∈ tbl, p.1 = i) ∧
      (keysOf tbl).Nodup ∧
      List.Chain' (fun p q => keyLeB p q = true) tbl :=
  ⟨by decide,
    overrides_merge_spec.1
      [.obj [("files", .arr [.str "a"]), ("x", .int 1)]]
      [.obj [("files", .arr [.str "a"]), ("x", .int 2)],
       .obj [("files", .arr [.str "b"]), ("x", .int 3)]]
      (by decide)⟩

/-! ## Totality of the deep merge on well-formed documents (claim C1) -/

lemma isObjB_some (v : JVal) (h : isObjB v = true) : ∃ o, v = .obj o := by
  cases v <;> simp [isObjB] at h
  exact ⟨_, rfl⟩

lemma isArrB_some (v : JVal) (h : isArrB v = true) : ∃ a, v = .arr a := by
  cases v <;> simp [isArrB] at h
  exact ⟨_, rfl⟩

lemma mergeKeyVal_other (ls : ListStrategy) (k : String) (bv v : JVal)
    (hdep : isDepKey k = false) (h1 : (isObjB bv && isObjB v) = false)
    (h2 : (isArrB bv && isArrB v) = false) : mergeKeyVal ls k bv v = .ok v := by
  cases bv <;> cases v <;> unfold mergeKeyVal <;> simp_all [isObjB, isArrB]

lemma entryOkB_dep {k : String} {v : JVal} (hdep : isDepKey k = true)
    (h : entryOkB k v = true) : isStrMapB v = true := by
  unfold entryOkB at h
  rw [if_pos hdep] at h
  exact h

lemma entryOkB_obj {k : String} {o : List (String × JVal)}
    (hdep : isDepKey k = false) (h : entryOkB k (.obj o) = true) :
    nodupKeysB o = true ∧ objOkB o = true := by
  unfold entryOkB at h
  rw [if_neg (by simp [hdep])] at h
  by_cases hov : k = "overrides"
  · rw [if_pos hov] at h
    have h2 : (nodupKeysB o && objOkB o) = true := h
    simp at h2
    exact h2
  · rw [if_neg hov] at h
    have h2 : (nodupKeysB o && objOkB o) = true := h
    simp at h2
    exact h2

lemma entryOkB_arr_general {k : String} {a : List JVal}
    (hdep : isDepKey k = false) (hov : k ≠ "overrides")
    (h : entryOkB k (.arr a) = true) : allStrB a = true := by
  unfold entryOkB at h
  rw [if_neg (by simp [hdep]), if_neg hov] at h
  exact h

lemma entryOkB_arr_overrides {a : List JVal}
    (h : entryOkB "overrides" (.arr a) = true) :
    ∀ x ∈ a, filesEntryOkB x = true := by
  unfold entryOkB at h
  rw [if_neg (by simp [isDepKey, DEPENDENCY_KEYS]), if_pos rfl] at h
  have h2 : a.all filesEntryOkB = true := h
  simpa [List.all_eq_true] using h2

lemma objOkB_mem : ∀ l : List (String × JVal), objOkB l = true →
    ∀ p ∈ l, entryOkB p.1 p.2 = true := by
  intro l
  induction l with
  | nil => intro _ p hp; simp at hp
  | cons q rest ih =>
    intro h p hp
    obtain ⟨k, v⟩ := q
    have h2 : entryOkB k v = true ∧ objOkB rest = true := by
      simpa [objOkB, Bool.and_eq_true] using h
    rcases List.mem_cons.mp hp with hp2 | hp2
    · rw [hp2]
      exact h2.1
    · exact ih h2.2 p hp2

lemma isStrMapB_cases (v : JVal) (h : isStrMapB v = true) :
    ∃ o, v = .obj o ∧ ∀ p ∈ o, isStrJ p.2 = true := by
  cases v <;> simp [isStrMapB] at h
  exact ⟨_, rfl, by simpa [List.all_eq_true] using h⟩

lemma allStrB_append (ba ua : List JVal) (hb : allStrB ba = true)
    (hu : allStrB ua = true) : allStrB (ba ++ ua) = true := by
  simp [allStrB, List.all_eq_true] at hb hu ⊢
  exact ⟨hb, hu⟩

lemma pyCompB_str (a b : String) : pyCompB (.str a) (.str b) = true := rfl

lemma allStrB_of_mem {l : List JVal} (h : allStrB l = true) :
    ∀ x ∈ l, ∃ s, x = JVal.str s := by
  intro x hx
  simp [allStrB, List.all_eq_true] at h
  exact isStrJ_some x (h x hx)

lemma allCompB_of_allStr : ∀ l : List JVal, allStrB l = true → allCompB l = true := by
  intro l
  induction l with
  | nil => intro _; rfl
  | cons x xs ih =>
    intro h
    have hx : isStrJ x = true ∧ allStrB xs = true := by
      simpa [allStrB, Bool.and_eq_true] using h
    obtain ⟨s, rfl⟩ := isStrJ_some x hx.1
    rw [show allCompB (JVal.str s :: xs) =
      (xs.all (fun y => pyCompB (.str s) y) && allCompB xs) from rfl]
    rw [Bool.and_eq_true]
    refine ⟨?_, ih hx.2⟩
    rw [List.all_eq_true]
    intro y hy
    obtain ⟨t, rfl⟩ := allStrB_of_mem hx.2 y hy
    exact pyCompB_str s t

lemma allStrB_sublist {l1 l2 : List JVal} (hs : l1.Sublist l2)
    (h : allStrB l2 = true) : allStrB l1 = true := by
  simp [allStrB, List.all_eq_true] at h ⊢
  intro x hx
  exact h x (hs.subset hx)

lemma listMergeGeneric_ok (l : List JVal) (h : allStrB l = true) :
    ∃ r, listMergeGeneric l = .ok r := by
  have hsub : (if l.all pyHashB then pyDedup l else l).Sublist l := by
    split
    · exact pyDedup_sublist l
    · exact List.Sublist.refl l
  have h2 : allCompB (if l.all pyHashB then pyDedup l else l) = true :=
    allCompB_of_allStr _ (allStrB_sublist hsub h)
  refine ⟨sortLe (if l.all pyHashB then pyDedup l else l), ?_⟩
  unfold listMergeGeneric sortE
  rw [if_pos h2]

lemma ovMerge_ok (ba ua : List JVal) (hb : ∀ x ∈ ba, filesEntryOkB x = true)
    (hu : ∀ x ∈ ua, filesEntryOkB x = true) : ∃ r, ovMerge ba ua = .ok r := by
  obtain ⟨dd2, hb1, _, _, _, _⟩ := ovAddBase_ok ba [] hb
  obtain ⟨dd3, hu1, _, _, _, _⟩ := ovAddUpd_ok ua dd2 hu
  refine ⟨(sortPairs dd3).map Prod.snd, ?_⟩
  simp only [ovMerge, hb1, hu1]

lemma merge_total_aux : ∀ n : Nat,
    (∀ ls k bv v, sizeOf v ≤ n → entryOkB k bv = true → entryOkB k v = true →
      ∃ w, mergeKeyVal ls k bv v = .ok w) ∧
    (∀ ls (result us : List (String × JVal)), sizeOf us ≤ n →
      nodupKeysB us = true → (∀ p ∈ us, entryOkB p.1 p.2 = true) →
      (∀ p ∈ us, ∀ bv, lookupA result p.1 = some bv → entryOkB p.1 bv = true) →
      ∃ r, deepMergeList ls result us = .ok r) := by
  intro n
  induction n with
  | zero =>
    constructor
    · intro ls k bv v hsz
      exact absurd hsz (by cases v <;> simp)
    · intro ls result us hsz
      exact absurd hsz (by cases us <;> simp)
  | succ n ihn =>
    obtain ⟨ih1, ih2⟩ := ihn
    constructor
    · intro ls k bv v hsz hob huv
      by_cases hdep : isDepKey k = true
      · have hsb := entryOkB_dep hdep hob
        have hsu := entryOkB_dep hdep huv
        obtain ⟨bo, rfl, hbo⟩ := isStrMapB_cases bv hsb
        obtain ⟨uo, rfl, huo⟩ := isStrMapB_cases v hsu
        obtain ⟨r, hr, _⟩ := mergeDependenciesJ_strmap bo uo hbo huo
        refine ⟨.obj r, ?_⟩
        unfold mergeKeyVal
        rw [if_pos hdep]
        exact hr
      · have hdep2 : isDepKey k = false := by
          cases hc : isDepKey k
          · rfl
          · exact absurd hc hdep
        by_cases hoo : (isObjB bv && isObjB v) = true
        · have hb : isObjB bv = true := by
            revert hoo
            cases isObjB bv <;> simp
          have hv2 : isObjB v = true := by
            revert hoo
            cases isObjB v <;> simp
          obtain ⟨bo, rfl⟩ := isObjB_some bv hb
          obtain ⟨uo, rfl⟩ := isObjB_some v hv2
          obtain ⟨hnduo, houo⟩ := entryOkB_obj hdep2 huv
          obtain ⟨hndbo, hobo⟩ := entryOkB_obj hdep2 hob
          have hszu : sizeOf uo ≤ n := by
            have h3 : sizeOf (JVal.obj uo) ≤ n + 1 := hsz
            simp at h3
            omega
          obtain ⟨r, hr⟩ := ih2 ls bo uo hszu hnduo (objOkB_mem uo houo)
            (fun p hp bv2 hbv2 => objOkB_mem bo hobo (p.1, bv2) (lookupA_mem hbv2))
          refine ⟨.obj r, ?_⟩
          unfold mergeKeyVal
          rw [if_neg (by simp [hdep2])]
          simp [hr]
        · by_cases haa : (isArrB bv && isArrB v) = true
          · have hb : isArrB bv = true := by
              revert haa
              cases isArrB bv <;> simp
            have hv2 : isArrB v = true := by
              revert haa
              cases isArrB v <;> simp
            obtain ⟨ba, rfl⟩ := isArrB_some bv hb
            obtain ⟨ua, rfl⟩ := isArrB_some v hv2
            cases ls with
            | replace =>
              refine ⟨.arr ua, ?_⟩
              unfold mergeKeyVal
              rw [if_neg (by simp [hdep2])]
            | merge =>
              by_cases hov : k = "overrides"
              · subst hov
                obtain ⟨r, hr⟩ := ovMerge_ok ba ua
                  (entryOkB_arr_overrides hob) (entryOkB_arr_overrides huv)
                refine ⟨.arr r, ?_⟩
                unfold mergeKeyVal
                rw [if_neg (by simp [hdep2])]
                simp [hr]
              · obtain ⟨r, hr⟩ := listMergeGeneric_ok (ba ++ ua)
                  (allStrB_append ba ua (entryOkB_arr_general hdep2 hov hob)
                    (entryOkB_arr_general hdep2 hov huv))
                refine ⟨.arr r, ?_⟩
                unfold mergeKeyVal
                rw [if_neg (by simp [hdep2])]
                simp [hov, hr]
          · refine ⟨v, mergeKeyVal_other ls k bv v hdep2 ?_ ?_⟩
            · cases hc : (isObjB bv && isObjB v)
              · rfl
              · exact absurd hc hoo
            · cases hc : (isArrB bv && isArrB v)
              · rfl
              · exact absurd hc haa
    · intro ls result us hsz hnd hwf hinv
      cases us with
      | nil => exact ⟨result, rfl⟩
      | cons p rest =>
        obtain ⟨k, v⟩ := p
        obtain ⟨hk1, hk2⟩ := nodupKeysB_cons hnd
        have hwfh : entryOkB k v = true := hwf (k, v) (List.mem_cons_self _ _)
        have hwfr : ∀ q ∈ rest, entryOkB q.1 q.2 = true :=
          fun q hq => hwf q (List.mem_cons_of_mem _ hq)
        have hszr : sizeOf rest ≤ n := by
          have h3 : sizeOf ((k, v) :: rest) ≤ n + 1 := hsz
          simp at h3
          omega
        have hszv : sizeOf v ≤ n := by
          have h3 : sizeOf ((k, v) :: rest) ≤ n + 1 := hsz
          simp at h3
          omega
        cases hl : lookupA result k with
        | none =>
          have hinv2 : ∀ q ∈ rest, ∀ bv, lookupA (result ++ [(k, v)]) q.1 = some bv →
              entryOkB q.1 bv = true := by
            intro q hq bv hbv
            have hqk : q.1 ≠ k := by
              intro he
              apply contains_false_not_mem _ _ hk1
              rw [← he]
              exact List.mem_map_of_mem Prod.fst hq
            rw [lookupA_append_ne result k v q.1 hqk] at hbv
            exact hinv q (List.mem_cons_of_mem _ hq) bv hbv
          obtain ⟨r, hr⟩ := ih2 ls (result ++ [(k, v)]) rest hszr hk2 hwfr hinv2
          refine ⟨r, ?_⟩
          simp only [deepMergeList, hl]
          exact hr
        | some bv =>
          have hbv : entryOkB k bv = true := hinv (k, v) (List.mem_cons_self _ _) bv hl
          obtain ⟨m, hm⟩ := ih1 ls k bv v hszv hbv hwfh
          have hinv2 : ∀ q ∈ rest, ∀ bv2, lookupA (upsertA result k m) q.1 = some bv2 →
              entryOkB q.1 bv2 = true := by
            intro q hq bv2 hbv2
            have hqk : q.1 ≠ k := by
              intro he
              apply contains_false_not_mem _ _ hk1
              rw [← he]
              exact List.mem_map_of_mem Prod.fst hq
            rw [lookupA_upsertA_ne result k m q.1 hqk] at hbv2
            exact hinv q (List.mem_cons_of_mem _ hq) bv2 hbv2
          obtain ⟨r, hr⟩ := ih2 ls (upsertA result k m) rest hszr hk2 hwfr hinv2
          refine ⟨r, ?_⟩
          simp only [deepMergeList, hl, hm]
          exact hr

/-- C1 (amended): the deep merge never raises on well-formed documents
(unique keys at every object level, dependency-key values are
string-valued objects, overrides array elements carrying `files` have
string-array `files` values, and other arrays hold strings); outside
these conditions the dependency branch, the overrides identity
computation, or the unprotected sort can raise. -/
theorem deep_merge_total_on_wellformed (ls : ListStrategy)
    (b u : List (String × JVal)) (hb : wfDocB b = true) (hu : wfDocB u = true) :
    exceptIsOk (deepMerge b u ls) = true := by
  have hb2 : nodupKeysB b = true ∧ objOkB b = true := by
    simpa [wfDocB] using hb
  have hu2 : nodupKeysB u = true ∧ objOkB u = true := by
    simpa [wfDocB] using hu
  obtain ⟨r, hr⟩ := (merge_total_aux (sizeOf u)).2 ls b u (le_refl _) hu2.1
    (objOkB_mem u hu2.2)
    (fun p hp bv hbv => objOkB_mem b hb2.2 (p.1, bv) (lookupA_mem hbv))
  rw [show deepMerge b u ls = deepMergeList ls b u from rfl, hr]
  rfl

/-- Witness for C1 (amended) on two concrete well-formed documents
exercising the dependency, nested-object, plain-array and overrides
branches. -/
theorem deep_merge_total_on_wellformed_witness :
    wfDocB [("name", .str "pkg"),
            ("dependencies", .obj [("x", .str "^1.0.0")]),
            ("keywords", .arr [.str "a", .str "b"]),
            ("config", .obj [("port", .int 1)]),
            ("overrides", .arr [.obj [("files", .arr [.str "f"]), ("x", .int 1)]])] = true ∧
    wfDocB [("dependencies", .obj [("x", .str "^1.2.0"), ("y", .str "~2.0.0")]),
            ("keywords", .arr [.str "c"]),
            ("config", .obj [("host", .str "h")]),
            ("overrides", .arr [.obj [("files", .arr [.str "g"]), ("x", .int 2)]])] = true ∧
    exceptIsOk (deepMerge
      [("name", .str "pkg"),
       ("dependencies", .obj [("x", .str "^1.0.0")]),
       ("keywords", .arr [.str "a", .str "b"]),
       ("config", .obj [("port", .int 1)]),
       ("overrides", .arr [.obj [("files", .arr [.str "f"]), ("x", .int 1)]])]
      [("dependencies", .obj [("x", .str "^1.2.0"), ("y", .str "~2.0.0")]),
       ("keywords", .arr [.str "c"]),
       ("config", .obj [("host", .str "h")]),
       ("overrides", .arr [.obj [("files", .arr [.str "g"]), ("x", .int 2)]])]
      ListStrategy.merge) = true :=
  ⟨rfl, rfl,
    deep_merge_total_on_wellformed ListStrategy.merge
      [("name", .str "pkg"),
       ("dependencies", .obj [("x", .str "^1.0.0")]),
       ("keywords", .arr [.str "a", .str "b"]),
       ("config", .obj [("port", .int 1)]),
       ("overrides", .arr [.obj [("files", .arr [.str "f"]), ("x", .int 1)]])]
      [("dependencies", .obj [("x", .str "^1.2.0"), ("y", .str "~2.0.0")]),
       ("keywords", .arr [.str "c"]),
       ("config", .obj [("host", .str "h")]),
       ("overrides", .arr [.obj [("files", .arr [.str "g"]), ("x", .int 2)]])]
      rfl rfl⟩
